import Mathlib

/-!
Verification of the classification-and-reconciliation engine of the UNFPA
job-vacancy scraper (`scraper.py`).  Strings are modelled as `List Char`.
The Unicode-dependent primitives (`unicodedata.normalize("NFKD", ·)`,
`str.upper`, the `\s`, `\w` and `\d` character classes) are modelled at the
character level by explicit tables covering the code points the pipeline
distinguishes (whitespace, dash-like code points, ASCII letters and digits);
characters outside the tables are fixed points, matching the behaviour of
the Python primitives on the code points the classifier compares against.
-/

set_option maxHeartbeats 1000000
set_option maxRecDepth 10000

namespace Scraper

/-- Whitespace characters: model of Python's `\s` class and `str.strip()`
whitespace (ASCII whitespace, the C1 separators, NEL, NBSP and the Unicode
space separators). -/
def spaceChars : List Char :=
  ['\t', '\n', '\x0b', '\x0c', '\r', '\x1c',
   '\x1d', '\x1e', '\x1f', ' ', '\x85', '\xa0',
   '\u1680', '\u2000', '\u2001', '\u2002', '\u2003', '\u2004',
   '\u2005', '\u2006', '\u2007', '\u2008', '\u2009', '\u200A',
   '\u2028', '\u2029', '\u202F', '\u205F', '\u3000']

def pyIsSpace (c : Char) : Bool := spaceChars.contains c

/-- The dash-like code points replaced by the character class
`[‐-―−﹘﹣－]` in `normalize` (scraper.py:56). -/
def dashChars : List Char :=
  ['\u2010', '\u2011', '\u2012', '\u2013', '\u2014',
   '\u2015', '\u2212', '\uFE58', '\uFE63', '\uFF0D']

def dashMap (c : Char) : Char := if dashChars.contains c then '-' else c

/-- Character-level model of `unicodedata.normalize("NFKD", ·)`
(scraper.py:55), restricted to the code points the pipeline distinguishes
(compatibility spaces and dashes); identity elsewhere. -/
def nfkdTable : List (Char × List Char) :=
  [('\xa0', [' ']), ('\u2000', [' ']), ('\u2001', [' ']),
   ('\u2002', [' ']), ('\u2003', [' ']), ('\u2004', [' ']),
   ('\u2005', [' ']), ('\u2006', [' ']), ('\u2007', [' ']),
   ('\u2008', [' ']), ('\u2009', [' ']), ('\u200A', [' ']),
   ('\u202F', [' ']), ('\u205F', [' ']), ('\u3000', [' ']),
   ('\u2011', ['\u2010']), ('\uFE58', ['\u2014']), ('\uFE63', ['-']),
   ('\uFF0D', ['-'])]

def nfkdChar (c : Char) : List Char := (nfkdTable.lookup c).getD [c]

/-- The 26 ASCII lower/upper pairs: model of `str.upper` (scraper.py:57) on
the ASCII range; identity elsewhere. -/
def lowerUpperTable : List (Char × Char) :=
  [('a', 'A'), ('b', 'B'), ('c', 'C'), ('d', 'D'), ('e', 'E'), ('f', 'F'),
   ('g', 'G'), ('h', 'H'), ('i', 'I'), ('j', 'J'), ('k', 'K'), ('l', 'L'),
   ('m', 'M'), ('n', 'N'), ('o', 'O'), ('p', 'P'), ('q', 'Q'), ('r', 'R'),
   ('s', 'S'), ('t', 'T'), ('u', 'U'), ('v', 'V'), ('w', 'W'), ('x', 'X'),
   ('y', 'Y'), ('z', 'Z')]

def upperChar (c : Char) : Char := (lowerUpperTable.lookup c).getD c

/-- Model of Python's `\w` class on the ASCII range (word characters). -/
def isWordChar (c : Char) : Bool := c.isAlpha || c.isDigit || c == '_'

/-- Left strip: drop leading whitespace (part of `str.strip()`). -/
def lstripWS (l : List Char) : List Char := l.dropWhile pyIsSpace

/-- Right strip: drop trailing whitespace (part of `str.strip()`). -/
def rstripWS : List Char → List Char
  | [] => []
  | c :: rest => if rstripWS rest = [] ∧ pyIsSpace c then [] else c :: rstripWS rest

def stripWS (l : List Char) : List Char := rstripWS (lstripWS l)

/-- Model of `re.sub(r"\s+", " ", ·)` (scraper.py:58): each maximal run of
whitespace becomes a single ASCII space.  The flag records whether the
previous character was part of a whitespace run. -/
def collapseAux : Bool → List Char → List Char
  | _, [] => []
  | inRun, c :: rest =>
    if pyIsSpace c then
      (if inRun then [] else [' ']) ++ collapseAux true rest
    else
      c :: collapseAux false rest

def collapseWS (l : List Char) : List Char := collapseAux false l

/-- Embedding of `normalize` (scraper.py:50-59): NFKD, dash folding,
uppercase, strip, whitespace collapse.  The `if not text` guard of line 52
is the empty-list test. -/
def normalize (l : List Char) : List Char :=
  if l = [] then []
  else collapseWS (stripWS (((l.flatMap nfkdChar).map dashMap).map upperChar))

example : normalize "  Consultant  ‑ P4 ".toList = "CONSULTANT - P4".toList := by decide

/-- The grade-family alternation `(P|D|G|SB|LSC|NO)` of the expansion
regexes (scraper.py:66,71), in the order the alternatives are tried. -/
def famAlts : List (List Char) :=
  [['P'], ['D'], ['G'], ['S', 'B'], ['L', 'S', 'C'], ['N', 'O']]

/-- First grade-family alternative matching a prefix of `l`. -/
def matchFam (l : List Char) : Option (List Char) :=
  famAlts.find? (fun f => f.isPrefixOf l)

/-- A position is a word boundary when the previous character (if any) is
not a word character and the next one is (the patterns always start with a
word character, so only the previous side needs checking). -/
def boundaryBefore : Option Char → Bool
  | none => true
  | some p => !isWordChar p

/-- Boundary after a match: the next character (if any) is not a word
character. -/
def boundaryAfter : List Char → Bool
  | [] => true
  | c :: _ => !isWordChar c

/-- Scanner for `re.sub(r"\b(P|D|G|SB|LSC|NO)(\d+)\b", r"\1-\2", ·)`
(`expand_compact_grade`, scraper.py:62-66).  `prev` is the character before
the current position in the original string (used for the leading `\b`);
`skip` counts characters of an already-emitted match still to be passed
over (re.sub continues scanning after the end of each match). -/
def ecAux (prev : Option Char) (skip : Nat) (l : List Char) : List Char :=
  match skip, l with
  | _, [] => []
  | s + 1, c :: rest => ecAux (some c) s rest
  | 0, c :: rest =>
    match (if boundaryBefore prev then matchFam (c :: rest) else none) with
    | some fam =>
      let r1 := (c :: rest).drop fam.length
      let ds := r1.takeWhile Char.isDigit
      if ds ≠ [] ∧ boundaryAfter (r1.dropWhile Char.isDigit) then
        fam ++ '-' :: ds ++ ecAux (some c) (fam.length + ds.length - 1) rest
      else
        c :: ecAux (some c) 0 rest
    | none => c :: ecAux (some c) 0 rest

def expand_compact_grade (l : List Char) : List Char := ecAux none 0 l

/-- Scanner for `re.sub(r"\b(P|D|G|SB|LSC|NO)\s+(\d+)\b", r"\1-\2", ·)`
(`expand_spaced_grade`, scraper.py:69-71). -/
def esAux (prev : Option Char) (skip : Nat) (l : List Char) : List Char :=
  match skip, l with
  | _, [] => []
  | s + 1, c :: rest => esAux (some c) s rest
  | 0, c :: rest =>
    match (if boundaryBefore prev then matchFam (c :: rest) else none) with
    | some fam =>
      let r1 := (c :: rest).drop fam.length
      let sp := r1.takeWhile pyIsSpace
      let r2 := r1.dropWhile pyIsSpace
      let ds := r2.takeWhile Char.isDigit
      if sp ≠ [] ∧ ds ≠ [] ∧ boundaryAfter (r2.dropWhile Char.isDigit) then
        fam ++ '-' :: ds ++ esAux (some c) (fam.length + sp.length + ds.length - 1) rest
      else
        c :: esAux (some c) 0 rest
    | none => c :: esAux (some c) 0 rest

def expand_spaced_grade (l : List Char) : List Char := esAux none 0 l

/-- Embedding of `normalize_grade` (scraper.py:74-79). -/
def normalize_grade (raw : List Char) : List Char :=
  expand_spaced_grade (expand_compact_grade (normalize raw))

example : normalize_grade "P4".toList = "P-4".toList := by decide
example : normalize_grade "P 4".toList = "P-4".toList := by decide
example : normalize_grade "P-4".toList = "P-4".toList := by decide
example : normalize_grade "SB 12".toList = "SB-12".toList := by decide
example : normalize_grade "NOA".toList = "NOA".toList := by decide
example : normalize_grade "ALSC4".toList = "ALSC4".toList := by decide

/-- Substring test: model of Python's `in` operator on strings
(`kw in n`, scraper.py:84).  True when `pat` occurs contiguously in `l`. -/
def hasSubstr (l pat : List Char) : Bool :=
  pat.isPrefixOf l ||
    match l with
    | [] => false
    | _ :: rest => hasSubstr rest pat

/-- Keyword constants of scraper.py:33-38. -/
def INCLUDED_GRADES : List (List Char) :=
  ["P-1".toList, "P-2".toList, "P-3".toList, "P-4".toList, "P-5".toList,
   "D-1".toList, "D-2".toList]

def EXCLUDED_GRADE_FAMILY_MARKERS : List (List Char) :=
  ["G-".toList, "SB-".toList, "LSC-".toList]

def EXCLUDED_NO_GRADES : List (List Char) :=
  ["NOA".toList, "NOB".toList, "NOC".toList, "NOD".toList,
   "NO-A".toList, "NO-B".toList, "NO-C".toList, "NO-D".toList]

def CONSULTANT_KEYWORDS : List (List Char) := ["CONSULTANT".toList, "CONSULTANCY".toList]

def INTERN_KEYWORDS : List (List Char) := ["INTERN".toList, "FELLOWSHIP".toList, "FELLOW".toList]

/-- Embedding of `contains_consultant` (scraper.py:82-84): any consultant
keyword occurs as a substring of the normalized text. -/
def contains_consultant (l : List Char) : Bool :=
  CONSULTANT_KEYWORDS.any (fun kw => hasSubstr (normalize l) kw)

/-- Embedding of `contains_intern` (scraper.py:87-89). -/
def contains_intern (l : List Char) : Bool :=
  INTERN_KEYWORDS.any (fun kw => hasSubstr (normalize l) kw)

/-- Search scanner for `re.search(r"\bG\-\d+\b", ·)` (and the SB, LSC
variants) used by `is_excluded_grade` (scraper.py:97-98): some position
starts, at a word boundary, with the marker (`pat`) followed by one or more
digits and a trailing word boundary. -/
def gradePatSearch (pat : List Char) (prev : Option Char) (l : List Char) : Bool :=
  match l with
  | [] => false
  | c :: rest =>
    (boundaryBefore prev && pat.isPrefixOf (c :: rest) &&
      (let r1 := (c :: rest).drop pat.length
       decide (r1.takeWhile Char.isDigit ≠ []) && boundaryAfter (r1.dropWhile Char.isDigit)))
    || gradePatSearch pat (some c) rest

/-- Embedding of `is_excluded_grade` (scraper.py:92-103): a G, SB or LSC
grade token (substring pre-check, then whole-token regex search), or any
literal national-officer grade spelling. -/
def is_excluded_grade (grade_norm : List Char) : Bool :=
  EXCLUDED_GRADE_FAMILY_MARKERS.any
    (fun pre => hasSubstr grade_norm pre && gradePatSearch pre none grade_norm)
  || EXCLUDED_NO_GRADES.any (fun no => hasSubstr grade_norm no)

/-- Embedding of `is_included_grade` (scraper.py:106-110). -/
def is_included_grade (grade_norm : List Char) : Bool :=
  INCLUDED_GRADES.any (fun g => hasSubstr grade_norm g)

/-- The f-string `f"{title} {grade} {contract_type} {category}"`
(scraper.py:123). -/
def allFields (title grade contract_type category : List Char) : List Char :=
  title ++ ' ' :: grade ++ ' ' :: contract_type ++ ' ' :: category

/-- Embedding of `should_include` (scraper.py:113-150).  The locals
`contract_norm` and `category_norm` of lines 130-131 are never read by the
source and are omitted. -/
def should_include (title grade contract_type category : List Char) : Bool :=
  let all_fields := allFields title grade contract_type category
  if contains_consultant all_fields then false
  else
    let grade_norm := normalize_grade grade
    if is_excluded_grade grade_norm then false
    else if is_included_grade grade_norm then true
    else if contains_intern grade || contains_intern contract_type || contains_intern category then
      true
    else if contains_intern title then true
    else false

example : should_include "Consultant".toList "P-4".toList [] [] = false := by decide
example : should_include "Intern".toList "G-6".toList [] [] = false := by decide
example : should_include "Graduate Fellowship Programme".toList [] [] [] = true := by decide
example : should_include "Programme Analyst".toList "P-2".toList [] [] = true := by decide
example : should_include "Driver".toList "G6".toList [] [] = false := by decide
example : should_include "Officer".toList "NO-B".toList [] [] = false := by decide

/-- A candidate posting: the dict built by the extraction strategies
(scraper.py:281-289), with the keys in their insertion order. -/
structure Job where
  title : List Char
  link : List Char
  location : List Char
  grade : List Char
  contract_type : List Char
  closing_date : List Char
  category : List Char
deriving DecidableEq

/-- The dict values of a candidate, in key-insertion order. -/
def jobValues (j : Job) : List (List Char) :=
  [j.title, j.link, j.location, j.grade, j.contract_type, j.closing_date, j.category]

/-- Completeness score: `sum(1 for v in job.values() if v)`
(scraper.py:395-396) — the number of non-empty fields. -/
def filledCount (j : Job) : Nat := (jobValues j).countP (fun v => !v.isEmpty)

/-- One step of the `merge_jobs` loop body (scraper.py:388-398): insert a
candidate into the link-keyed accumulator (a Python dict, modelled as an
association list in insertion order), replacing the stored candidate only
when the new one has strictly more filled fields. -/
def mergeInsert : List Job → Job → List Job
  | [], job => [job]
  | stored :: rest, job =>
    if stored.link = job.link then
      (if filledCount stored < filledCount job then job else stored) :: rest
    else
      stored :: mergeInsert rest job

/-- Embedding of `merge_jobs` (scraper.py:384-399): fold all candidate
lists, in order, into the link-keyed accumulator; the result is
`list(by_link.values())`, i.e. the accumulator in insertion order. -/
def merge_jobs (lists : List (List Job)) : List Job :=
  lists.foldl (fun acc jobs => jobs.foldl mergeInsert acc) []

/-- First-occurrence deduplication (statement-side definition for the
output order of `merge_jobs`). -/
def firstDedup : List (List Char) → List (List Char)
  | [] => []
  | x :: rest => x :: (firstDedup rest).filter (fun y => y ≠ x)

/-- The preferred of two candidates for one link: the later one only when
its completeness score is strictly greater (statement-side definition of
the claim's replacement rule; ties keep the earlier candidate). -/
def better (a b : Job) : Job := if filledCount a < filledCount b then b else a

/-- The candidate the claim says `merge_jobs` must keep for `link`: the
`better`-fold over the candidates carrying that link, in encounter order. -/
def bestFor (cands : List Job) (link : List Char) : Option Job :=
  match cands.filter (fun j => j.link = link) with
  | [] => none
  | c :: cs => some (cs.foldl better c)

/-- The run-wide cap on included postings (scraper.py:30). -/
def MAX_INCLUDED : Nat := 50

/-- Whether `should_include` accepts a candidate (scraper.py:480-485). -/
def jobIncluded (j : Job) : Bool :=
  should_include j.title j.grade j.contract_type j.category

/-- The per-page inclusion loop of `scrape_jobs` (scraper.py:476-490):
append each merged candidate that classifies as included, stopping once the
accumulated count reaches `MAX_INCLUDED`. -/
def pageLoop (included : List Job) : List Job → List Job
  | [] => included
  | job :: rest =>
    if MAX_INCLUDED ≤ included.length then included
    else if jobIncluded job then pageLoop (included ++ [job]) rest
    else pageLoop included rest

/-- One page's candidate lists, as returned by the three extraction
strategies (scraper.py:460-462). -/
structure Page where
  jobsA : List Job
  jobsB : List Job
  jobsC : List Job

/-- The scraping loop of `scrape_jobs` (scraper.py:455-503) over an
abstract sequence of pages (the page-acquisition collaborator): each
iteration merges the three strategy lists, stops when the merge is empty,
runs the inclusion loop, and stops when the cap is reached or no page
remains (`find_next_page` fails). -/
def scrapePages (included : List Job) : List Page → List Job
  | [] => included
  | pg :: rest =>
    if included.length < MAX_INCLUDED then
      let all_jobs := merge_jobs [pg.jobsA, pg.jobsB, pg.jobsC]
      if all_jobs = [] then included
      else
        let included' := pageLoop included all_jobs
        if MAX_INCLUDED ≤ included'.length then included'
        else scrapePages included' rest
    else included

/-- Embedding of `scrape_jobs` (scraper.py:441-511): the accumulated
included list over a run, starting empty. -/
def scrape_jobs (pages : List Page) : List Job := scrapePages [] pages

/-- UTF-8 encoding of one code point (model of `str.encode()`,
scraper.py:46). -/
def utf8Char (n : Nat) : List Nat :=
  if n < 128 then [n]
  else if n < 2048 then [192 + n / 64, 128 + n % 64]
  else if n < 65536 then [224 + n / 4096, 128 + n / 64 % 64, 128 + n % 64]
  else [240 + n / 262144, 128 + n / 4096 % 64, 128 + n / 64 % 64, 128 + n % 64]

/-- UTF-8 bytes of a string. -/
def utf8Encode (l : List Char) : List Nat := l.flatMap (fun c => utf8Char c.toNat)

/-! ### MD5 (RFC 1321), over `Nat` with explicit reduction modulo 2^32.
This embeds the `hashlib.md5` call of `generate_numeric_id`
(scraper.py:44-47). -/

def M32 : Nat := 4294967296

/-- Bitwise complement on 32-bit values. -/
def not32 (x : Nat) : Nat := x ^^^ 4294967295

/-- Left rotation of a 32-bit value. -/
def rotl32 (x s : Nat) : Nat := ((x <<< s) % M32) ||| (x >>> (32 - s))

def md5F (b c d : Nat) : Nat := (b &&& c) ||| (not32 b &&& d)

def md5G (b c d : Nat) : Nat := (d &&& b) ||| (not32 d &&& c)

def md5H (b c d : Nat) : Nat := b ^^^ c ^^^ d

def md5I (b c d : Nat) : Nat := c ^^^ (b ||| not32 d)

/-- The 64 sine-derived round constants. -/
def md5K : List Nat :=
  [0xd76aa478, 0xe8c7b756, 0x242070db, 0xc1bdceee,
   0xf57c0faf, 0x4787c62a, 0xa8304613, 0xfd469501,
   0x698098d8, 0x8b44f7af, 0xffff5bb1, 0x895cd7be,
   0x6b901122, 0xfd987193, 0xa679438e, 0x49b40821,
   0xf61e2562, 0xc040b340, 0x265e5a51, 0xe9b6c7aa,
   0xd62f105d, 0x02441453, 0xd8a1e681, 0xe7d3fbc8,
   0x21e1cde6, 0xc33707d6, 0xf4d50d87, 0x455a14ed,
   0xa9e3e905, 0xfcefa3f8, 0x676f02d9, 0x8d2a4c8a,
   0xfffa3942, 0x8771f681, 0x6d9d6122, 0xfde5380c,
   0xa4beea44, 0x4bdecfa9, 0xf6bb4b60, 0xbebfbc70,
   0x289b7ec6, 0xeaa127fa, 0xd4ef3085, 0x04881d05,
   0xd9d4d039, 0xe6db99e5, 0x1fa27cf8, 0xc4ac5665,
   0xf4292244, 0x432aff97, 0xab9423a7, 0xfc93a039,
   0x655b59c3, 0x8f0ccc92, 0xffeff47d, 0x85845dd1,
   0x6fa87e4f, 0xfe2ce6e0, 0xa3014314, 0x4e0811a1,
   0xf7537e82, 0xbd3af235, 0x2ad7d2bb, 0xeb86d391]

/-- The 64 per-round rotation amounts. -/
def md5S : List Nat :=
  [7, 12, 17, 22, 7, 12, 17, 22, 7, 12, 17, 22, 7, 12, 17, 22,
   5, 9, 14, 20, 5, 9, 14, 20, 5, 9, 14, 20, 5, 9, 14, 20,
   4, 11, 16, 23, 4, 11, 16, 23, 4, 11, 16, 23, 4, 11, 16, 23,
   6, 10, 15, 21, 6, 10, 15, 21, 6, 10, 15, 21, 6, 10, 15, 21]

structure MD5State where
  a : Nat
  b : Nat
  c : Nat
  d : Nat
deriving DecidableEq

def md5Init : MD5State := ⟨0x67452301, 0xefcdab89, 0x98badcfe, 0x10325476⟩

/-- One of the 64 rounds on a 16-word message block `m`. -/
def md5Round (m : List Nat) (st : MD5State) (i : Nat) : MD5State :=
  let f :=
    if i < 16 then md5F st.b st.c st.d
    else if i < 32 then md5G st.b st.c st.d
    else if i < 48 then md5H st.b st.c st.d
    else md5I st.b st.c st.d
  let g :=
    if i < 16 then i
    else if i < 32 then (5 * i + 1) % 16
    else if i < 48 then (3 * i + 5) % 16
    else (7 * i) % 16
  let x := (f + st.a + md5K.getD i 0 + m.getD g 0) % M32
  { a := st.d, b := (st.b + rotl32 x (md5S.getD i 0)) % M32, c := st.b, d := st.c }

/-- Process one 512-bit block (given as 16 little-endian 32-bit words). -/
def md5Block (st : MD5State) (m : List Nat) : MD5State :=
  let r := (List.range 64).foldl (md5Round m) st
  ⟨(st.a + r.a) % M32, (st.b + r.b) % M32, (st.c + r.c) % M32, (st.d + r.d) % M32⟩

/-- `k` bytes of `n`, little-endian. -/
def leBytes (k n : Nat) : List Nat := (List.range k).map (fun i => n / 256 ^ i % 256)

/-- MD5 padding: a 0x80 byte, zeros to 56 mod 64, then the bit length as
eight little-endian bytes. -/
def md5Pad (msg : List Nat) : List Nat :=
  msg ++ 128 :: List.replicate ((56 + 64 - (msg.length + 1) % 64) % 64) 0
      ++ leBytes 8 (8 * msg.length % 2 ^ 64)

/-- Split a byte list into chunks of 64 (structural recursion via a
position counter). -/
def chunks64 (cur : List Nat) (n : Nat) : List Nat → List (List Nat)
  | [] => if cur = [] then [] else [cur.reverse]
  | b :: rest =>
    if n = 63 then (b :: cur).reverse :: chunks64 [] 0 rest
    else chunks64 (b :: cur) (n + 1) rest

/-- The 16 little-endian words of a 64-byte chunk. -/
def chunkWords (c : List Nat) : List Nat :=
  (List.range 16).map (fun i =>
    c.getD (4 * i) 0 + 256 * c.getD (4 * i + 1) 0 +
    65536 * c.getD (4 * i + 2) 0 + 16777216 * c.getD (4 * i + 3) 0)

/-- MD5 digest (16 bytes) of a byte message. -/
def md5Bytes (msg : List Nat) : List Nat :=
  let st := (chunks64 [] 0 (md5Pad msg)).foldl (fun st c => md5Block st (chunkWords c)) md5Init
  leBytes 4 st.a ++ leBytes 4 st.b ++ leBytes 4 st.c ++ leBytes 4 st.d

def decDigits : List Char := ['0', '1', '2', '3', '4', '5', '6', '7', '8', '9']

/-- Lowercase hexadecimal digit characters. -/
def hexDigits : List Char :=
  decDigits ++ ['a', 'b', 'c', 'd', 'e', 'f']

def hexDigit (n : Nat) : Char := hexDigits.getD n '0'

/-- The `hexdigest()` string: two lowercase hex characters per byte. -/
def md5Hex (msg : List Nat) : List Char :=
  (md5Bytes msg).flatMap (fun b => [hexDigit (b / 16), hexDigit (b % 16)])

example : md5Hex (utf8Encode "".toList) = "d41d8cd98f00b204e9800998ecf8427e".toList := by decide
example : md5Hex (utf8Encode "abc".toList) = "900150983cd24fb0d6963f7d28e17f72".toList := by decide

/-- Value of one hexadecimal character (model of `int(·, 16)` digit
handling on the characters `hexdigest()` produces). -/
def hexCharVal (c : Char) : Nat :=
  ((hexDigits.zip (List.range 16)).lookup c).getD 0

/-- Model of `int(s, 16)` on a hex string. -/
def parseHex (l : List Char) : Nat := l.foldl (fun a c => 16 * a + hexCharVal c) 0

def decDigit (n : Nat) : Char := decDigits.getD n '0'

/-- Decimal representation (model of `str(·)` on a non-negative int); the
fuel argument makes the recursion structural and any fuel above the digit
count gives the same result. -/
def toDecAux : Nat → Nat → List Char
  | 0, _ => []
  | fuel + 1, n => if n < 10 then [decDigit n] else toDecAux fuel (n / 10) ++ [decDigit (n % 10)]

def toDec (n : Nat) : List Char := toDecAux (n + 1) n

/-- Model of `str.zfill(w)` on a digit string: left-pad with zeros to width
`w`. -/
def zfill (w : Nat) (l : List Char) : List Char :=
  List.replicate (w - l.length) '0' ++ l

/-- Embedding of `generate_numeric_id` (scraper.py:44-47): MD5 the UTF-8
bytes of the URL, take the first 16 hexdigest characters as an integer,
reduce modulo 10^16 and zero-pad to 16 digits. -/
def generate_numeric_id (url : List Char) : List Char :=
  zfill 16 (toDec (parseHex ((md5Hex (utf8Encode url)).take 16) % 10000000000000000))

example : (generate_numeric_id "https://www.unfpa.org/jobs/example".toList).length = 16 := by
  decide

/-- The identifier algorithm as the spec (section 4.4) words it: MD5 the
UTF-8 bytes of the link, interpret the first 16 hexadecimal digest
characters as an unsigned integer, reduce modulo 10^16, and zero-pad the
decimal result to exactly 16 digits. -/
def specGenerateId (link : List Char) : List Char :=
  zfill 16 (toDec (parseHex ((md5Hex (utf8Encode link)).take 16) % 10 ^ 16))

/-! ### Persisted feed model.
`load_existing_feed` (scraper.py:517-542) reads an XML file; the file's
parse outcome is modelled as an inductive: the file may be missing, fail to
parse, have no `channel` element, or yield a list of raw `item` elements.
Each raw item field is `none` when the element is missing or its text is
`None`, mirroring `item.find(tag)`/`.text`. -/

structure RawItem where
  title : Option (List Char)
  link : Option (List Char)
  description : Option (List Char)
  guid : Option (List Char)
  pubDate : Option (List Char)

inductive FeedFile where
  | missing
  | parseError
  | parsed (channel : Option (List RawItem))

/-- A persisted feed item as kept in the `existing` dict values
(scraper.py:533-539).  All five keys are always set by
`load_existing_feed`, so the later `data.get(...)` calls with defaults
(scraper.py:603-609) always return the stored values. -/
structure FeedItem where
  title : List Char
  link : List Char
  description : List Char
  guid : List Char
  pubDate : List Char
deriving DecidableEq

instance : Inhabited FeedItem := ⟨⟨[], [], [], [], []⟩⟩

/-- `(el.text or "").strip()` for an optional element text. -/
def textOrEmpty : Option (List Char) → List Char
  | none => []
  | some t => stripWS t

/-- Python dict assignment `d[k] = v` on an insertion-ordered association
list: overwrite in place when the key exists, append otherwise. -/
def dictInsert (d : List (List Char × FeedItem)) (k : List Char) (v : FeedItem) :
    List (List Char × FeedItem) :=
  if d.any (fun p => p.1 = k) then
    d.map (fun p => if p.1 = k then (k, v) else p)
  else d ++ [(k, v)]

/-- Loop body of `load_existing_feed` (scraper.py:529-539): an `item` with
a present, non-empty `link` text is stored under its stripped link;
other items are skipped. -/
def loadItem (ex : List (List Char × FeedItem)) (it : RawItem) :
    List (List Char × FeedItem) :=
  match it.link with
  | some t =>
    if t ≠ [] then
      dictInsert ex (stripWS t)
        { title := textOrEmpty it.title
          link := stripWS t
          description := textOrEmpty it.description
          guid := textOrEmpty it.guid
          pubDate := textOrEmpty it.pubDate }
    else ex
  | none => ex

/-- Embedding of `load_existing_feed` (scraper.py:517-542): missing file,
parse failure, or missing `channel` give the empty mapping; otherwise the
items are folded into the link-keyed dict. -/
def load_existing_feed : FeedFile → List (List Char × FeedItem)
  | .missing => []
  | .parseError => []
  | .parsed none => []
  | .parsed (some items) => items.foldl loadItem []

/-- Embedding of `build_description` (scraper.py:545-560).  The candidate
dicts always carry a `location` key, so `job.get("location", "Unknown")`
returns the stored value (possibly empty). -/
def build_description (j : Job) : List Char :=
  "UNFPA has a vacancy for the position of ".toList ++ j.title ++
    ". Location: ".toList ++ j.location ++ ".".toList ++
    (if !j.grade.isEmpty then " Grade: ".toList ++ j.grade ++ ".".toList else []) ++
    (if !j.contract_type.isEmpty then
      " Contract type: ".toList ++ j.contract_type ++ ".".toList else []) ++
    (if !j.closing_date.isEmpty then
      " Closing date: ".toList ++ j.closing_date ++ ".".toList else [])

/-- The feed item materialized for a newly classified posting
(scraper.py:615-626): guid from the link, pubDate the run timestamp. -/
def mkNewItem (now : List Char) (j : Job) : FeedItem :=
  { title := j.title
    link := j.link
    description := build_description j
    guid := generate_numeric_id j.link
    pubDate := now }

/-- The feed item emitted for an entry of the existing mapping
(scraper.py:601-612): every stored field is written back unchanged (the
`data.get` defaults of lines 608-609 are never taken because
`load_existing_feed` sets every key). -/
def mkExistingItem (kv : List Char × FeedItem) : FeedItem :=
  { title := kv.2.title
    link := kv.2.link
    description := kv.2.description
    guid := kv.2.guid
    pubDate := kv.2.pubDate }

/-- The `item` elements of the feed written by `generate_rss`
(scraper.py:563-626), given the loaded existing mapping, the classified
postings of the run and the run timestamp `now`: all existing items are
appended first, then one new item per classified posting whose link is not
an existing key.  XML serialization, channel headers and pretty-printing
are out of scope. -/
def generate_rss_items (existing : List (List Char × FeedItem)) (new_jobs : List Job)
    (now : List Char) : List FeedItem :=
  let existing_links := existing.map Prod.fst
  let truly_new := new_jobs.filter (fun j => !existing_links.contains j.link)
  let chan := existing.foldl (fun acc kv => acc ++ [mkExistingItem kv]) []
  truly_new.foldl (fun acc j => acc ++ [mkNewItem now j]) chan

/-- Conversion of a written feed item back to the raw item the next run's
parse sees: every field was written as the element's text
(scraper.py:601-626), so every field is present. -/
def writtenRaw (it : FeedItem) : RawItem :=
  { title := some it.title, link := some it.link, description := some it.description,
    guid := some it.guid, pubDate := some it.pubDate }

/-- The persisted feed mapping after a run: what `load_existing_feed`
recovers from the file the run wrote, i.e. the loader fold of
scraper.py:529-539 applied to the written items.  A later item whose
stripped link repeats an earlier one overwrites it
(`existing[link] = ...`, scraper.py:533). -/
def runState (existing : List (List Char × FeedItem)) (new_jobs : List Job)
    (now : List Char) : List (List Char × FeedItem) :=
  ((generate_rss_items existing new_jobs now).map writtenRaw).foldl loadItem []

/-- Concrete posting used to instantiate the C1 monotonicity theorem. -/
def jobC1 : Job :=
  { title := "Analyst".toList, link := "https://www.unfpa.org/jobs/a".toList,
    location := [], grade := "P-3".toList, contract_type := [], closing_date := [],
    category := [] }

/-- Second posting with the same link as `jobC1` but a different title,
for the C1 counterexample. -/
def jobC1b : Job :=
  { title := "Adviser".toList, link := "https://www.unfpa.org/jobs/a".toList,
    location := [], grade := "P-4".toList, contract_type := [], closing_date := [],
    category := [] }

/-- Concrete posting used for the C2 duplicate-link counterexample. -/
def jobC2 : Job :=
  { title := "Analyst".toList, link := "https://www.unfpa.org/jobs/x".toList,
    location := [], grade := "P-2".toList, contract_type := [], closing_date := [],
    category := [] }

/-- Concrete posting used to instantiate the amended C2 theorem. -/
def jobC2b : Job :=
  { title := "Adviser".toList, link := "https://www.unfpa.org/jobs/y".toList,
    location := [], grade := "P-5".toList, contract_type := [], closing_date := [],
    category := [] }

/-- Concrete posting used to instantiate the C10 theorem. -/
def jobC10 : Job :=
  { title := "Specialist".toList, link := "https://www.unfpa.org/jobs/z".toList,
    location := [], grade := "D-1".toList, contract_type := [], closing_date := [],
    category := [] }

/-! ## Theorems -/

theorem foldl_push {α β : Type} (f : α → β) (l : List α) : ∀ init : List β,
    l.foldl (fun acc x => acc ++ [f x]) init = init ++ l.map f := by
  induction l with
  | nil => intro init; simp
  | cons x rest ih => intro init; simp [ih]

theorem mkExistingItem_snd (kv : List Char × FeedItem) : mkExistingItem kv = kv.2 := rfl

/-- The emitted feed: existing values (in order, unchanged) followed by the
materialized items of the classified postings with genuinely new links. -/
theorem generate_rss_items_eq (existing : List (List Char × FeedItem)) (new_jobs : List Job)
    (now : List Char) :
    generate_rss_items existing new_jobs now =
      existing.map Prod.snd ++
        (new_jobs.filter (fun j => !(existing.map Prod.fst).contains j.link)).map
          (mkNewItem now) := by
  unfold generate_rss_items
  rw [foldl_push mkExistingItem, foldl_push (mkNewItem now)]
  simp [mkExistingItem_snd]

theorem dictInsert_fresh (d : List (List Char × FeedItem)) (k : List Char) (v : FeedItem)
    (h : ∀ p ∈ d, p.1 ≠ k) : dictInsert d k v = d ++ [(k, v)] := by
  have hneg : ¬ d.any (fun p => p.1 = k) = true := by
    rw [List.any_eq_true]
    rintro ⟨p, hp, he⟩
    exact h p hp (by simpa using he)
  unfold dictInsert
  rw [if_neg hneg]

theorem loadItem_written (ex : List (List Char × FeedItem)) (a : FeedItem)
    (hlink : a.link ≠ []) (h1 : stripWS a.link = a.link) (h2 : stripWS a.title = a.title)
    (h3 : stripWS a.description = a.description) (h4 : stripWS a.guid = a.guid)
    (h5 : stripWS a.pubDate = a.pubDate) :
    loadItem ex (writtenRaw a) = dictInsert ex a.link a := by
  show (if a.link ≠ [] then
      dictInsert ex (stripWS a.link)
        { title := textOrEmpty (some a.title), link := stripWS a.link,
          description := textOrEmpty (some a.description),
          guid := textOrEmpty (some a.guid),
          pubDate := textOrEmpty (some a.pubDate) }
    else ex) = dictInsert ex a.link a
  rw [if_pos hlink]
  have he : ({ title := textOrEmpty (some a.title), link := stripWS a.link,
               description := textOrEmpty (some a.description),
               guid := textOrEmpty (some a.guid),
               pubDate := textOrEmpty (some a.pubDate) } : FeedItem) = a := by
    show ({ title := stripWS a.title, link := stripWS a.link,
            description := stripWS a.description, guid := stripWS a.guid,
            pubDate := stripWS a.pubDate } : FeedItem) = a
    rw [h1, h2, h3, h4, h5]
  rw [he, h1]

theorem load_of_written (items : List FeedItem) :
    ∀ (acc : List (List Char × FeedItem)),
    (acc.map Prod.fst ++ items.map (fun it => it.link)).Nodup →
    (∀ it ∈ items, it.link ≠ [] ∧ stripWS it.link = it.link ∧
      stripWS it.title = it.title ∧ stripWS it.description = it.description ∧
      stripWS it.guid = it.guid ∧ stripWS it.pubDate = it.pubDate) →
    (items.map writtenRaw).foldl loadItem acc =
      acc ++ items.map (fun it => (it.link, it)) := by
  induction items with
  | nil => intro acc _ _; simp
  | cons a rest ih =>
    intro acc hnd hst
    obtain ⟨hlink, h1, h2, h3, h4, h5⟩ := hst a (List.mem_cons_self a rest)
    have hfresh : ∀ p ∈ acc, p.1 ≠ a.link := by
      intro p hp he
      simp only [List.map_cons] at hnd
      rw [List.nodup_append] at hnd
      exact hnd.2.2 (List.mem_map_of_mem Prod.fst hp)
        (by rw [he]; exact List.mem_cons_self _ _)
    simp only [List.map_cons, List.foldl_cons]
    rw [loadItem_written acc a hlink h1 h2 h3 h4 h5, dictInsert_fresh acc a.link a hfresh]
    have hnd' : ((acc ++ [(a.link, a)]).map Prod.fst ++
        rest.map (fun it => it.link)).Nodup := by
      simp only [List.map_cons] at hnd
      rw [List.append_cons] at hnd
      simpa using hnd
    rw [ih (acc ++ [(a.link, a)]) hnd' (fun x hx => hst x (List.mem_cons_of_mem a hx))]
    simp

/-- The original monotonicity consequent of C1 is false on the code: a run
whose classified list repeats a link writes two items with that link
(reachable, see C2), and the next run's loader keeps only the later one
(`existing[link] = ...` overwrites, scraper.py:533), so the earlier item is
dropped even though run 2's input is a link-superset of run 1's. -/
theorem claim_C1_counterexample :
    (∀ j ∈ [jobC1, jobC1b], ∃ j2 ∈ [jobC1, jobC1b], j2.link = j.link) ∧
    ¬ (∀ it ∈ generate_rss_items [] [jobC1, jobC1b] "t1".toList,
        it ∈ generate_rss_items (runState [] [jobC1, jobC1b] "t1".toList)
          [jobC1, jobC1b] "t2".toList) := by decide

/-- Claim C1 (amended): reconciliation emits every existing item first, in
original relative order with all stored fields unchanged, followed by the
newly materialized items in classification order.  The monotonicity
consequent is amended: when run 1's emitted feed has pairwise-distinct
links and every emitted item has a non-empty link and whitespace-trimmed
fields (so the write/reload round trip returns it unchanged), a second run
on the reloaded state with a link-superset input emits every run-1 item
verbatim, guid and pubDate included.  Without the distinct-links condition
the consequent fails: the loader overwrite (scraper.py:533) drops the
earlier of two same-link items, as the counterexample shows. -/
theorem claim_C1 :
    (∀ (existing : List (List Char × FeedItem)) (new_jobs : List Job) (now : List Char),
        generate_rss_items existing new_jobs now =
          existing.map Prod.snd ++
            (new_jobs.filter (fun j => !(existing.map Prod.fst).contains j.link)).map
              (mkNewItem now)) ∧
    (∀ (existing : List (List Char × FeedItem)) (run1 run2 : List Job) (t1 t2 : List Char),
        (∀ j ∈ run1, ∃ j2 ∈ run2, j2.link = j.link) →
        ((generate_rss_items existing run1 t1).map (fun it => it.link)).Nodup →
        (∀ it ∈ generate_rss_items existing run1 t1,
          it.link ≠ [] ∧ stripWS it.link = it.link ∧ stripWS it.title = it.title ∧
          stripWS it.description = it.description ∧ stripWS it.guid = it.guid ∧
          stripWS it.pubDate = it.pubDate) →
        ∀ it ∈ generate_rss_items existing run1 t1,
          it ∈ generate_rss_items (runState existing run1 t1) run2 t2) := by
  constructor
  · exact generate_rss_items_eq
  · intro existing run1 run2 t1 t2 _ hnd hst it hit
    have hload : runState existing run1 t1 =
        (generate_rss_items existing run1 t1).map (fun x => (x.link, x)) := by
      unfold runState
      exact load_of_written (generate_rss_items existing run1 t1) [] (by simpa using hnd) hst
    have hmap : ∀ l : List FeedItem, (l.map (fun x => (x.link, x))).map Prod.snd = l := by
      intro l
      induction l with
      | nil => rfl
      | cons x xs ih => simp only [List.map_cons, ih]
    rw [generate_rss_items_eq, hload, hmap]
    exact List.mem_append_left _ hit

theorem claim_C1_witness :
    ((∀ j ∈ [jobC1], ∃ j2 ∈ [jobC1], j2.link = j.link) ∧
      ((generate_rss_items [] [jobC1] "t1".toList).map (fun it => it.link)).Nodup ∧
      (∀ it ∈ generate_rss_items [] [jobC1] "t1".toList,
        it.link ≠ [] ∧ stripWS it.link = it.link ∧ stripWS it.title = it.title ∧
        stripWS it.description = it.description ∧ stripWS it.guid = it.guid ∧
        stripWS it.pubDate = it.pubDate)) ∧
      mkNewItem "t1".toList jobC1 ∈
        generate_rss_items (runState [] [jobC1] "t1".toList) [jobC1] "t2".toList := by
  refine ⟨⟨by decide, by decide, by decide⟩, ?_⟩
  exact claim_C1.2 [] [jobC1] [jobC1] "t1".toList "t2".toList (by decide) (by decide)
    (by decide) (mkNewItem "t1".toList jobC1) (by decide)

theorem dictInsert_keys (d : List (List Char × FeedItem)) (k : List Char) (v : FeedItem) :
    (dictInsert d k v).map Prod.fst =
      if d.any (fun p => p.1 = k) then d.map Prod.fst else d.map Prod.fst ++ [k] := by
  unfold dictInsert
  split
  · simp only [List.map_map]
    exact List.map_congr_left (fun p _ => by by_cases h : p.1 = k <;> simp [h])
  · simp

theorem dictInsert_keys_nodup (d : List (List Char × FeedItem)) (k : List Char) (v : FeedItem)
    (h : (d.map Prod.fst).Nodup) : ((dictInsert d k v).map Prod.fst).Nodup := by
  rw [dictInsert_keys]
  split
  · exact h
  · next hne =>
    rw [List.nodup_append]
    refine ⟨h, List.nodup_singleton k, ?_⟩
    intro a ha hb
    rw [List.mem_singleton] at hb
    subst hb
    rw [List.mem_map] at ha
    obtain ⟨p, hp, he⟩ := ha
    exact hne (List.any_eq_true.mpr ⟨p, hp, by simp [he]⟩)

theorem dictInsert_link (d : List (List Char × FeedItem)) (k : List Char) (v : FeedItem)
    (h : ∀ kv ∈ d, kv.2.link = kv.1) (hv : v.link = k) :
    ∀ kv ∈ dictInsert d k v, kv.2.link = kv.1 := by
  unfold dictInsert
  split
  · intro kv hkv
    rw [List.mem_map] at hkv
    obtain ⟨p, hp, he⟩ := hkv
    by_cases hpk : p.1 = k
    · simp only [hpk, if_pos rfl] at he
      subst he
      exact hv
    · simp only [if_neg hpk] at he
      subst he
      exact h p hp
  · intro kv hkv
    rcases List.mem_append.mp hkv with hm | hm
    · exact h kv hm
    · rw [List.mem_singleton] at hm
      subst hm
      exact hv

theorem loadItem_inv (d : List (List Char × FeedItem)) (it : RawItem)
    (h1 : (d.map Prod.fst).Nodup) (h2 : ∀ kv ∈ d, kv.2.link = kv.1) :
    ((loadItem d it).map Prod.fst).Nodup ∧ ∀ kv ∈ loadItem d it, kv.2.link = kv.1 := by
  unfold loadItem
  cases it.link with
  | none => exact ⟨h1, h2⟩
  | some t =>
    by_cases ht : t ≠ []
    · simp only [if_pos ht]
      exact ⟨dictInsert_keys_nodup _ _ _ h1, dictInsert_link _ _ _ h2 rfl⟩
    · simp only [if_neg ht]
      exact ⟨h1, h2⟩

theorem loadFold_inv (items : List RawItem) :
    ∀ d : List (List Char × FeedItem),
      (d.map Prod.fst).Nodup → (∀ kv ∈ d, kv.2.link = kv.1) →
      ((items.foldl loadItem d).map Prod.fst).Nodup ∧
        ∀ kv ∈ items.foldl loadItem d, kv.2.link = kv.1 := by
  induction items with
  | nil => intro d h1 h2; exact ⟨h1, h2⟩
  | cons it rest ih =>
    intro d h1 h2
    obtain ⟨h1', h2'⟩ := loadItem_inv d it h1 h2
    exact ih (loadItem d it) h1' h2'

/-- The mapping recovered from the persisted feed has pairwise-distinct
keys and every stored item's link field equals its key. -/
theorem load_existing_feed_inv (file : FeedFile) :
    ((load_existing_feed file).map Prod.fst).Nodup ∧
      ∀ kv ∈ load_existing_feed file, kv.2.link = kv.1 := by
  cases file with
  | missing => exact ⟨List.nodup_nil, fun kv h => absurd h (List.not_mem_nil kv)⟩
  | parseError => exact ⟨List.nodup_nil, fun kv h => absurd h (List.not_mem_nil kv)⟩
  | parsed ch =>
    cases ch with
    | none => exact ⟨List.nodup_nil, fun kv h => absurd h (List.not_mem_nil kv)⟩
    | some items =>
      exact loadFold_inv items [] List.nodup_nil (fun kv h => absurd h (List.not_mem_nil kv))

/-- Claim C2, as stated, is false: `generate_rss` only filters classified
postings against the links already in the persisted feed, so a classified
list carrying the same link twice yields two feed items with that link. -/
theorem claim_C2_counterexample :
    ¬ (((generate_rss_items (load_existing_feed .missing) [jobC2, jobC2] "t".toList).map
        (fun it => it.link)).Nodup) := by decide

/-- Claim C2 (amended): the emitted feed's links are pairwise distinct
provided the newly classified postings' links are pairwise distinct;
existing items never collide with each other (dict keys) nor with new items
(the `truly_new` filter). -/
theorem claim_C2 (file : FeedFile) (new_jobs : List Job) (now : List Char)
    (h : (new_jobs.map (fun j => j.link)).Nodup) :
    ((generate_rss_items (load_existing_feed file) new_jobs now).map
      (fun it => it.link)).Nodup := by
  obtain ⟨hk, hv⟩ := load_existing_feed_inv file
  rw [generate_rss_items_eq, List.map_append, List.map_map, List.map_map]
  have he : (load_existing_feed file).map ((fun it => it.link) ∘ Prod.snd) =
      (load_existing_feed file).map Prod.fst :=
    List.map_congr_left (fun kv hkv => hv kv hkv)
  have hn : ((fun it => it.link) ∘ mkNewItem now) = fun j : Job => j.link := rfl
  rw [he, hn]
  rw [List.nodup_append]
  refine ⟨hk, h.sublist ((List.filter_sublist new_jobs).map _), ?_⟩
  intro a ha hb
  rw [List.mem_map] at hb
  obtain ⟨j, hj, hje⟩ := hb
  rw [List.mem_filter] at hj
  have : j.link ∉ (load_existing_feed file).map Prod.fst := by
    intro hmem
    have := hj.2
    rw [Bool.not_eq_eq_eq_not, Bool.not_true] at this
    exact absurd (List.elem_iff.mpr hmem) (by simp [List.contains] at this ⊢; exact this)
  exact this (hje ▸ ha)

theorem claim_C2_witness :
    (([jobC2b].map (fun j => j.link)).Nodup) ∧
      ((generate_rss_items (load_existing_feed .missing) [jobC2b] "t".toList).map
        (fun it => it.link)).Nodup :=
  ⟨by decide, claim_C2 .missing [jobC2b] "t".toList (by decide)⟩

/-- Claim C3: the consultant veto has top priority — whenever a consultant
keyword occurs in the normalized concatenation of all four fields,
`should_include` returns false, whatever the grade. -/
theorem claim_C3 (title grade contract_type category : List Char)
    (h : hasSubstr (normalize (allFields title grade contract_type category))
          "CONSULTANT".toList = true ∨
         hasSubstr (normalize (allFields title grade contract_type category))
          "CONSULTANCY".toList = true) :
    should_include title grade contract_type category = false := by
  have hc : contains_consultant (allFields title grade contract_type category) = true := by
    unfold contains_consultant CONSULTANT_KEYWORDS
    rw [List.any_eq_true]
    rcases h with h | h
    · exact ⟨"CONSULTANT".toList, by simp, h⟩
    · exact ⟨"CONSULTANCY".toList, by simp, h⟩
  unfold should_include
  simp [hc]

theorem claim_C3_witness :
    (hasSubstr (normalize (allFields "Consultant in Health".toList "P-4".toList [] []))
        "CONSULTANT".toList = true ∨
      hasSubstr (normalize (allFields "Consultant in Health".toList "P-4".toList [] []))
        "CONSULTANCY".toList = true) ∧
      should_include "Consultant in Health".toList "P-4".toList [] [] = false :=
  ⟨Or.inl (by decide), claim_C3 "Consultant in Health".toList "P-4".toList [] []
    (Or.inl (by decide))⟩

/-- Claim C4: whenever the normalized, grade-expanded grade matches an
excluded-grade pattern, `should_include` returns false — also when the
title carries an internship keyword (the excluded-grade rule is checked
before the internship rules). -/
theorem claim_C4 (title grade contract_type category : List Char)
    (h : is_excluded_grade (normalize_grade grade) = true) :
    should_include title grade contract_type category = false := by
  unfold should_include
  by_cases hc : contains_consultant (allFields title grade contract_type category) = true
  · simp [hc]
  · simp [hc, h]

theorem claim_C4_witness :
    is_excluded_grade (normalize_grade "G-6".toList) = true ∧
      should_include "Intern".toList "G-6".toList [] [] = false :=
  ⟨by decide, claim_C4 "Intern".toList "G-6".toList [] [] (by decide)⟩

theorem pageLoop_length_le (js : List Job) :
    ∀ included : List Job, included.length ≤ MAX_INCLUDED →
      (pageLoop included js).length ≤ MAX_INCLUDED := by
  induction js with
  | nil => intro included h; exact h
  | cons j rest ih =>
    intro included h
    unfold pageLoop
    by_cases hge : MAX_INCLUDED ≤ included.length
    · simp only [if_pos hge]
      exact h
    · simp only [if_neg hge]
      by_cases hj : jobIncluded j = true
      · simp only [hj, if_pos rfl]
        refine ih (included ++ [j]) ?_
        simp only [List.length_append, List.length_singleton]
        omega
      · simp only [hj]
        exact ih included h

theorem scrapePages_length_le (pages : List Page) :
    ∀ included : List Job, included.length ≤ MAX_INCLUDED →
      (scrapePages included pages).length ≤ MAX_INCLUDED := by
  induction pages with
  | nil => intro included h; exact h
  | cons pg rest ih =>
    intro included h
    unfold scrapePages
    by_cases hlt : included.length < MAX_INCLUDED
    · simp only [if_pos hlt]
      by_cases hempty : merge_jobs [pg.jobsA, pg.jobsB, pg.jobsC] = []
      · simp only [if_pos hempty]
        exact h
      · simp only [if_neg hempty]
        have hp := pageLoop_length_le (merge_jobs [pg.jobsA, pg.jobsB, pg.jobsC]) included h
        by_cases hcap : MAX_INCLUDED ≤ (pageLoop included (merge_jobs [pg.jobsA, pg.jobsB, pg.jobsC])).length
        · simp only [if_pos hcap]
          exact hp
        · simp only [if_neg hcap]
          exact ih _ hp
    · simp only [if_neg hlt]
      exact h

/-- Claim C9: over any sequence of pages with any candidate lists, the
accumulated included-posting list of a run never exceeds 50 entries. -/
theorem claim_C9 (pages : List Page) : (scrape_jobs pages).length ≤ 50 := by
  have h := scrapePages_length_le pages [] (by simp [MAX_INCLUDED])
  simpa [scrape_jobs, MAX_INCLUDED] using h

/-- Claim C10: a missing, unparseable, or channel-less persisted feed loads
as the empty mapping, and reconciliation then materializes every classified
posting as a new item. -/
theorem claim_C10 (file : FeedFile)
    (h : file = .missing ∨ file = .parseError ∨ file = .parsed none) :
    load_existing_feed file = [] ∧
      ∀ new_jobs now, generate_rss_items (load_existing_feed file) new_jobs now =
        new_jobs.map (mkNewItem now) := by
  have hl : load_existing_feed file = [] := by
    rcases h with h | h | h <;> subst h <;> rfl
  refine ⟨hl, fun new_jobs now => ?_⟩
  rw [hl, generate_rss_items_eq]
  simp

theorem claim_C10_witness :
    load_existing_feed .missing = [] ∧
      generate_rss_items (load_existing_feed .missing) [jobC10] "t".toList =
        [jobC10].map (mkNewItem "t".toList) :=
  ⟨(claim_C10 .missing (Or.inl rfl)).1,
   (claim_C10 .missing (Or.inl rfl)).2 [jobC10] "t".toList⟩

theorem char_eq_of_toNat {c d : Char} (h : c.toNat = d.toNat) : c = d :=
  Char.ext (UInt32.ext h)

theorem decDigit_isDigit (n : Nat) : (decDigit n).isDigit = true := by
  by_cases h : n < 10
  · interval_cases n <;> decide
  · unfold decDigit
    rw [List.getD_eq_default]
    · decide
    · simp only [decDigits, List.length]
      omega

theorem toDecAux_length : ∀ fuel n k : Nat, n < fuel → 1 ≤ k → n < 10 ^ k →
    (toDecAux fuel n).length ≤ k := by
  intro fuel
  induction fuel with
  | zero => intro n k h; omega
  | succ f ih =>
    intro n k hfuel hk hbound
    unfold toDecAux
    by_cases h10 : n < 10
    · simp only [if_pos h10, List.length_singleton]
      omega
    · simp only [if_neg h10, List.length_append, List.length_singleton]
      have hk2 : 2 ≤ k := by
        by_contra hlt
        have hk1 : k = 1 := by omega
        subst hk1
        simp only [pow_one] at hbound
        omega
      have hdiv : n / 10 < 10 ^ (k - 1) := by
        rw [Nat.div_lt_iff_lt_mul (by norm_num : (0:Nat) < 10)]
        have : 10 ^ (k - 1) * 10 = 10 ^ k := by
          rw [← pow_succ]
          congr 1
          omega
        omega
      have hfuel' : n / 10 < f := by
        have := Nat.div_lt_self (by omega : 0 < n) (by norm_num : 1 < 10)
        omega
      have := ih (n / 10) (k - 1) hfuel' (by omega) hdiv
      omega

theorem toDecAux_digits : ∀ fuel n : Nat, ∀ c ∈ toDecAux fuel n, c.isDigit = true := by
  intro fuel
  induction fuel with
  | zero => intro n c h; simp [toDecAux] at h
  | succ f ih =>
    intro n c h
    unfold toDecAux at h
    by_cases h10 : n < 10
    · simp only [if_pos h10, List.mem_singleton] at h
      subst h
      exact decDigit_isDigit n
    · simp only [if_neg h10, List.mem_append, List.mem_singleton] at h
      rcases h with h | h
      · exact ih _ _ h
      · subst h
        exact decDigit_isDigit _

theorem zfill_length (w : Nat) (l : List Char) (h : l.length ≤ w) :
    (zfill w l).length = w := by
  simp only [zfill, List.length_append, List.length_replicate]
  omega

/-- Claim C6: `generate_numeric_id` computes exactly the spec's formula
(first 16 MD5 hexdigest characters as an unsigned integer, reduced modulo
10^16, zero-padded), and its result is always exactly 16 decimal digits.
Determinism and link-only dependence hold because the embedding is a pure
function of the link. -/
theorem claim_C6 (link : List Char) :
    generate_numeric_id link = specGenerateId link ∧
    (generate_numeric_id link).length = 16 ∧
    ∀ c ∈ generate_numeric_id link, c.isDigit = true := by
  have hmod : parseHex ((md5Hex (utf8Encode link)).take 16) % 10000000000000000 <
      10000000000000000 := Nat.mod_lt _ (by norm_num)
  refine ⟨by norm_num [generate_numeric_id, specGenerateId], ?_, ?_⟩
  · unfold generate_numeric_id
    apply zfill_length
    unfold toDec
    refine toDecAux_length _ _ 16 (Nat.lt_succ_self _) (by norm_num) ?_
    calc parseHex ((md5Hex (utf8Encode link)).take 16) % 10000000000000000
        < 10000000000000000 := hmod
      _ = 10 ^ 16 := by norm_num
  · unfold generate_numeric_id zfill
    intro c hc
    rcases List.mem_append.mp hc with h | h
    · rw [List.eq_of_mem_replicate h]
      decide
    · exact toDecAux_digits _ _ c h

theorem mem_firstDedup (x : List Char) : ∀ l : List (List Char), x ∈ firstDedup l ↔ x ∈ l := by
  intro l
  induction l with
  | nil => simp [firstDedup]
  | cons y rest ih =>
    simp only [firstDedup, List.mem_cons, List.mem_filter, ih, decide_eq_true_eq]
    constructor
    · rintro (h | ⟨h1, _⟩)
      · exact Or.inl h
      · exact Or.inr h1
    · rintro (h | h)
      · exact Or.inl h
      · by_cases hxy : x = y
        · exact Or.inl hxy
        · exact Or.inr ⟨h, hxy⟩

theorem firstDedup_concat (x : List Char) : ∀ l : List (List Char),
    firstDedup (l ++ [x]) = if x ∈ l then firstDedup l else firstDedup l ++ [x] := by
  intro l
  induction l with
  | nil => simp [firstDedup]
  | cons y rest ih =>
    have hcons : firstDedup ((y :: rest) ++ [x]) =
        y :: (firstDedup (rest ++ [x])).filter (fun z => z ≠ y) := rfl
    rw [hcons, ih]
    by_cases hx : x ∈ rest
    · rw [if_pos hx, if_pos (List.mem_cons_of_mem y hx)]
      rfl
    · by_cases hxy : x = y
      · subst hxy
        rw [if_neg hx, if_pos (List.mem_cons_self x rest), List.filter_append]
        simp [firstDedup]
      · rw [if_neg hx, if_neg (by simp [hxy, hx]), List.filter_append]
        simp only [List.filter_cons, List.filter_nil]
        rw [if_pos (by simpa using hxy)]
        simp [firstDedup]

theorem mergeInsert_not_mem (acc : List Job) (job : Job)
    (h : job.link ∉ acc.map (fun j => j.link)) : mergeInsert acc job = acc ++ [job] := by
  induction acc with
  | nil => rfl
  | cons stored rest ih =>
    simp only [List.map_cons, List.mem_cons] at h
    push_neg at h
    unfold mergeInsert
    have hne : ¬(stored.link = job.link) := fun e => h.1 e.symm
    simp [hne, ih h.2]

theorem mergeInsert_mem (acc : List Job) (job : Job)
    (hnd : (acc.map (fun j => j.link)).Nodup)
    (h : job.link ∈ acc.map (fun j => j.link)) :
    mergeInsert acc job =
      acc.map (fun s => if s.link = job.link then better s job else s) := by
  induction acc with
  | nil => simp at h
  | cons stored rest ih =>
    simp only [List.map_cons, List.nodup_cons] at hnd
    obtain ⟨hnotin, hndr⟩ := hnd
    unfold mergeInsert
    by_cases he : stored.link = job.link
    · rw [if_pos he]
      simp only [List.map_cons, if_pos he]
      congr 1
      have hrest : ∀ s ∈ rest, (if s.link = job.link then better s job else s) = s := by
        intro s hs
        rw [if_neg]
        intro e
        exact hnotin (by rw [he, ← e]; exact List.mem_map_of_mem _ hs)
      exact ((List.map_congr_left hrest).trans (List.map_id rest)).symm
    · rw [if_neg he]
      simp only [List.map_cons, if_neg he]
      congr 1
      rw [List.map_cons, List.mem_cons] at h
      rcases h with hh | hh
      · exact absurd hh.symm he
      · exact ih hndr hh

theorem filter_link_nil (ps : List Job) (x : List Char)
    (h : x ∉ ps.map (fun j => j.link)) :
    ps.filter (fun j => j.link = x) = [] := by
  rw [List.filter_eq_nil_iff]
  intro j hj
  simp only [decide_eq_true_eq]
  intro e
  exact h (e ▸ List.mem_map_of_mem _ hj)

theorem bestFor_concat_ne (ps : List Job) (job : Job) (x : List Char)
    (h : ¬(job.link = x)) : bestFor (ps ++ [job]) x = bestFor ps x := by
  unfold bestFor
  rw [List.filter_append]
  simp [h]

theorem bestFor_concat_eq (ps : List Job) (job : Job) :
    bestFor (ps ++ [job]) job.link =
      match bestFor ps job.link with
      | none => some job
      | some s => some (better s job) := by
  unfold bestFor
  rw [List.filter_append]
  simp only [List.filter_cons, List.filter_nil, decide_True, if_pos]
  cases hf : ps.filter (fun j => j.link = job.link) with
  | nil => simp
  | cons c cs => simp [List.foldl_concat]

/-- The invariant of the `merge_jobs` fold: after processing `ps`, the
accumulator has pairwise-distinct links, its links are the
first-occurrence deduplication of the processed links, and each stored
candidate is the `better`-fold of the processed candidates with its
link. -/
theorem mergeFold_inv (js : List Job) : ∀ (acc ps : List Job),
    (acc.map (fun j => j.link)).Nodup →
    acc.map (fun j => j.link) = firstDedup (ps.map (fun j => j.link)) →
    (∀ j ∈ acc, bestFor ps j.link = some j) →
    ((js.foldl mergeInsert acc).map (fun j => j.link)).Nodup ∧
      (js.foldl mergeInsert acc).map (fun j => j.link) =
        firstDedup ((ps ++ js).map (fun j => j.link)) ∧
      ∀ j ∈ js.foldl mergeInsert acc, bestFor (ps ++ js) j.link = some j := by
  induction js with
  | nil =>
    intro acc ps h1 h2 h3
    simpa using ⟨h1, h2, h3⟩
  | cons job rest ih =>
    intro acc ps h1 h2 h3
    have hstep :
        ((mergeInsert acc job).map (fun j => j.link)).Nodup ∧
          (mergeInsert acc job).map (fun j => j.link) =
            firstDedup ((ps ++ [job]).map (fun j => j.link)) ∧
          ∀ j ∈ mergeInsert acc job, bestFor (ps ++ [job]) j.link = some j := by
      by_cases hmem : job.link ∈ acc.map (fun j => j.link)
      · have hin : job.link ∈ ps.map (fun j => j.link) := by
          rw [h2, mem_firstDedup] at hmem
          exact hmem
        rw [mergeInsert_mem acc job h1 hmem]
        have hlinks : (acc.map (fun s => if s.link = job.link then better s job else s)).map
            (fun j => j.link) = acc.map (fun j => j.link) := by
          rw [List.map_map]
          refine List.map_congr_left (fun s _ => ?_)
          by_cases hsl : s.link = job.link
          · simp only [Function.comp, if_pos hsl]
            unfold better
            split
            · rw [hsl]
            · rfl
          · simp [Function.comp, hsl]
        refine ⟨by rw [hlinks]; exact h1, ?_, ?_⟩
        · rw [hlinks, h2, List.map_append]
          simp only [List.map_cons, List.map_nil]
          rw [firstDedup_concat, if_pos hin]
        · intro j hj
          rw [List.mem_map] at hj
          obtain ⟨s, hs, he⟩ := hj
          by_cases hsl : s.link = job.link
          · rw [if_pos hsl] at he
            subst he
            have hbest := h3 s hs
            have hlink : (better s job).link = job.link := by
              unfold better
              split
              · rfl
              · rw [hsl]
            rw [hlink, bestFor_concat_eq]
            rw [← hsl, hbest]
          · rw [if_neg hsl] at he
            subst he
            rw [bestFor_concat_ne ps job s.link (fun e => hsl e.symm)]
            exact h3 s hs
      · have hnotin : job.link ∉ ps.map (fun j => j.link) := by
          rw [h2, mem_firstDedup] at hmem
          exact hmem
        rw [mergeInsert_not_mem acc job hmem]
        refine ⟨?_, ?_, ?_⟩
        · rw [List.map_append]
          rw [List.nodup_append]
          refine ⟨h1, by simp, ?_⟩
          intro a ha hb
          simp only [List.map_cons, List.map_nil, List.mem_singleton] at hb
          subst hb
          exact hmem ha
        · rw [List.map_append, h2, List.map_append]
          simp only [List.map_cons, List.map_nil]
          rw [firstDedup_concat, if_neg hnotin]
        · intro j hj
          rcases List.mem_append.mp hj with hja | hjb
          · have hne : ¬(job.link = j.link) := by
              intro e
              exact hmem (e ▸ List.mem_map_of_mem _ hja)
            rw [bestFor_concat_ne ps job j.link hne]
            exact h3 j hja
          · simp only [List.mem_singleton] at hjb
            subst hjb
            rw [bestFor_concat_eq]
            have : bestFor ps j.link = none := by
              unfold bestFor
              rw [filter_link_nil ps j.link hnotin]
            rw [this]
    obtain ⟨g1, g2, g3⟩ := ih (mergeInsert acc job) (ps ++ [job]) hstep.1 hstep.2.1 hstep.2.2
    rw [List.foldl_cons]
    refine ⟨g1, ?_, ?_⟩
    · rw [g2]
      simp
    · intro j hj
      have := g3 j hj
      simpa using this

/-- Claim C5: `merge_jobs` keeps exactly one candidate per distinct link
(links pairwise distinct, in first-appearance order), and the kept
candidate is the `better`-fold of that link's candidates in encounter
order — a later candidate replaces the stored one only on strictly greater
completeness, ties keeping the earliest. -/
theorem claim_C5 (lists : List (List Job)) :
    ((merge_jobs lists).map (fun j => j.link)).Nodup ∧
      (merge_jobs lists).map (fun j => j.link) =
        firstDedup (lists.flatten.map (fun j => j.link)) ∧
      ∀ j ∈ merge_jobs lists, bestFor lists.flatten j.link = some j := by
  have hflat : merge_jobs lists = lists.flatten.foldl mergeInsert [] := by
    unfold merge_jobs
    rw [List.foldl_flatten]
  rw [hflat]
  have h := mergeFold_inv lists.flatten [] []
    (by simp) (by simp [firstDedup]) (by intro j hj; simp at hj)
  simpa using h

theorem lookup_mem {α β : Type} [BEq α] [LawfulBEq α] :
    ∀ (t : List (α × β)) (k : α) (v : β), t.lookup k = some v → (k, v) ∈ t := by
  intro t
  induction t with
  | nil => intro k v h; simp [List.lookup] at h
  | cons p rest ih =>
    intro k v h
    obtain ⟨pk, pv⟩ := p
    rw [List.lookup_cons] at h
    cases hbeq : (k == pk) with
    | true =>
      simp only [hbeq] at h
      have hk : k = pk := eq_of_beq hbeq
      have hv : v = pv := by simpa using h.symm
      subst hk
      subst hv
      exact List.mem_cons_self _ _
    | false =>
      simp only [hbeq] at h
      exact List.mem_cons_of_mem _ (ih k v h)

/-- Every character produced by the NFKD model is itself NFKD-stable. -/
theorem nfkdChar_out (c z : Char) (h : z ∈ nfkdChar c) : nfkdChar z = [z] := by
  unfold nfkdChar at h
  cases hl : nfkdTable.lookup c with
  | none =>
    rw [hl] at h
    simp only [Option.getD_none, List.mem_singleton] at h
    subst h
    unfold nfkdChar
    rw [hl]
    rfl
  | some v =>
    rw [hl] at h
    simp only [Option.getD_some] at h
    have hm := lookup_mem nfkdTable c v hl
    have F1 : ∀ p ∈ nfkdTable, ∀ z' ∈ p.2, nfkdChar z' = [z'] := by decide
    exact F1 (c, v) hm z h

theorem dashMap_fixed (z : Char) (hz : nfkdChar z = [z]) :
    nfkdChar (dashMap z) = [dashMap z] ∧ dashMap (dashMap z) = dashMap z := by
  by_cases hd : dashChars.contains z = true
  · have hm : dashMap z = '-' := by unfold dashMap; rw [if_pos hd]
    rw [hm]
    exact ⟨by decide, by decide⟩
  · have hm : dashMap z = z := by unfold dashMap; rw [if_neg hd]
    rw [hm]
    exact ⟨hz, hm⟩

theorem upperChar_fixed (x : Char) (h1 : nfkdChar x = [x]) (h2 : dashMap x = x) :
    nfkdChar (upperChar x) = [upperChar x] ∧ dashMap (upperChar x) = upperChar x ∧
      upperChar (upperChar x) = upperChar x := by
  cases hl : lowerUpperTable.lookup x with
  | none =>
    have hux : upperChar x = x := by unfold upperChar; rw [hl]; rfl
    rw [hux]
    exact ⟨h1, h2, hux⟩
  | some u =>
    have hux : upperChar x = u := by unfold upperChar; rw [hl]; rfl
    rw [hux]
    have hm := lookup_mem lowerUpperTable x u hl
    have F2 : ∀ p ∈ lowerUpperTable, nfkdChar p.2 = [p.2] ∧ dashMap p.2 = p.2 ∧
        upperChar p.2 = p.2 := by decide
    exact F2 (x, u) hm

/-- Every character of the NFKD/dash/uppercase stage output is a fixed
point of all three character maps. -/
theorem stage3_fixed (l : List Char) (c : Char)
    (h : c ∈ ((l.flatMap nfkdChar).map dashMap).map upperChar) :
    nfkdChar c = [c] ∧ dashMap c = c ∧ upperChar c = c := by
  rw [List.mem_map] at h
  obtain ⟨x, hx, hcx⟩ := h
  rw [List.mem_map] at hx
  obtain ⟨z, hz, hxz⟩ := hx
  rw [List.mem_flatMap] at hz
  obtain ⟨orig, _, hzo⟩ := hz
  have hzf := nfkdChar_out orig z hzo
  subst hxz
  subst hcx
  obtain ⟨d1, d2⟩ := dashMap_fixed z hzf
  exact upperChar_fixed (dashMap z) d1 d2

theorem mem_collapseAux : ∀ (l : List Char) (b : Bool) (c : Char), c ∈ collapseAux b l →
    (c ∈ l ∧ pyIsSpace c = false) ∨ c = ' ' := by
  intro l
  induction l with
  | nil => intro b c h; simp [collapseAux] at h
  | cons a rest ih =>
    intro b c h
    unfold collapseAux at h
    by_cases hs : pyIsSpace a = true
    · rw [if_pos hs] at h
      rw [List.mem_append] at h
      rcases h with h | h
      · right
        cases b
        · simpa using h
        · simp at h
      · rcases ih true c h with ⟨h1, h2⟩ | h1
        · exact Or.inl ⟨List.mem_cons_of_mem a h1, h2⟩
        · exact Or.inr h1
    · rw [if_neg hs] at h
      rcases List.mem_cons.mp h with h | h
      · subst h
        exact Or.inl ⟨List.mem_cons_self _ _, by simpa using hs⟩
      · rcases ih false c h with ⟨h1, h2⟩ | h1
        · exact Or.inl ⟨List.mem_cons_of_mem a h1, h2⟩
        · exact Or.inr h1

theorem mem_rstripWS : ∀ (l : List Char) (c : Char), c ∈ rstripWS l → c ∈ l := by
  intro l
  induction l with
  | nil => intro c h; simp [rstripWS] at h
  | cons a rest ih =>
    intro c h
    unfold rstripWS at h
    split at h
    · simp at h
    · rcases List.mem_cons.mp h with h | h
      · exact h ▸ List.mem_cons_self a rest
      · exact List.mem_cons_of_mem a (ih c h)

theorem lstripWS_head : ∀ (l : List Char) (c : Char), (lstripWS l).head? = some c →
    pyIsSpace c = false := by
  intro l
  induction l with
  | nil => intro c h; simp [lstripWS] at h
  | cons a rest ih =>
    intro c h
    unfold lstripWS at h ih
    rw [List.dropWhile_cons] at h
    by_cases hs : pyIsSpace a = true
    · rw [if_pos hs] at h
      exact ih c h
    · rw [if_neg hs] at h
      simp only [List.head?_cons, Option.some_inj] at h
      subst h
      simpa using hs

theorem rstripWS_head : ∀ (l : List Char) (c : Char), (rstripWS l).head? = some c →
    l.head? = some c := by
  intro l
  induction l with
  | nil => intro c h; simp [rstripWS] at h
  | cons a rest _ =>
    intro c h
    unfold rstripWS at h
    split at h
    · simp at h
    · simp only [List.head?_cons, Option.some_inj] at h
      subst h
      rfl

theorem rstripWS_last : ∀ (l : List Char) (c : Char), (rstripWS l).getLast? = some c →
    pyIsSpace c = false := by
  intro l
  induction l with
  | nil => intro c h; simp [rstripWS] at h
  | cons a rest ih =>
    intro c h
    unfold rstripWS at h
    split at h
    · simp at h
    · next hcond =>
      cases he : rstripWS rest with
      | nil =>
        rw [he] at h
        simp only [List.getLast?_singleton, Option.some_inj] at h
        subst h
        by_cases hs : pyIsSpace a = true
        · exact absurd ⟨he, hs⟩ hcond
        · simpa using hs
      | cons r0 rrest =>
        rw [he] at h
        rw [List.getLast?_cons_cons] at h
        exact ih c (he ▸ h)

theorem collapseAux_head (l : List Char) (c : Char) (h : l.head? = some c)
    (hc : pyIsSpace c = false) : (collapseAux false l).head? = some c := by
  cases l with
  | nil => simp at h
  | cons a rest =>
    simp only [List.head?_cons, Option.some_inj] at h
    subst h
    unfold collapseAux
    rw [if_neg (by simp [hc])]
    rfl

theorem collapseAux_last : ∀ (l : List Char) (b : Bool) (c : Char),
    l.getLast? = some c → pyIsSpace c = false →
    (collapseAux b l).getLast? = some c := by
  intro l
  induction l with
  | nil => intro b c h; simp at h
  | cons a rest ih =>
    intro b c h hc
    cases rest with
    | nil =>
      simp only [List.getLast?_singleton, Option.some_inj] at h
      subst h
      unfold collapseAux
      rw [if_neg (by simp [hc])]
      rfl
    | cons a2 rest2 =>
      rw [List.getLast?_cons_cons] at h
      unfold collapseAux
      by_cases hs : pyIsSpace a = true
      · rw [if_pos hs]
        have hrec := ih true c h hc
        rw [List.getLast?_append, hrec]
        rfl
      · rw [if_neg hs]
        have hrec := ih false c h hc
        cases hcc : collapseAux false (a2 :: rest2) with
        | nil => rw [hcc] at hrec; simp at hrec
        | cons x xs =>
          rw [hcc] at hrec
          rw [List.getLast?_cons_cons]
          exact hrec

theorem lstripWS_eq_self (l : List Char) (h : ∀ c, l.head? = some c → pyIsSpace c = false) :
    lstripWS l = l := by
  cases l with
  | nil => rfl
  | cons a rest =>
    unfold lstripWS
    rw [List.dropWhile_cons, if_neg]
    simp [h a rfl]

theorem rstripWS_eq_self : ∀ l : List Char,
    (∀ c, l.getLast? = some c → pyIsSpace c = false) → rstripWS l = l := by
  intro l
  induction l with
  | nil => intro h; rfl
  | cons a rest ih =>
    intro h
    cases rest with
    | nil =>
      have hsp : pyIsSpace a = false := h a (by rfl)
      unfold rstripWS
      rw [if_neg (fun hand => by rw [hsp] at hand; exact Bool.false_ne_true hand.2)]
      rfl
    | cons a2 rest2 =>
      have hr : rstripWS (a2 :: rest2) = a2 :: rest2 := by
        refine ih ?_
        intro c hc
        refine h c ?_
        rw [List.getLast?_cons_cons]
        exact hc
      unfold rstripWS
      rw [hr, if_neg (fun hand => List.cons_ne_nil a2 rest2 hand.1)]

theorem collapseAux_cons (b : Bool) (a : Char) (rest : List Char) :
    collapseAux b (a :: rest) =
      if pyIsSpace a = true then
        (if b = true then [] else [' ']) ++ collapseAux true rest
      else a :: collapseAux false rest := by
  cases b <;> rfl

theorem collapseAux_idem : ∀ (l : List Char) (b : Bool),
    collapseAux b (collapseAux b l) = collapseAux b l := by
  intro l
  induction l with
  | nil => intro b; rfl
  | cons a rest ih =>
    intro b
    by_cases hs : pyIsSpace a = true
    · cases b
      · have h1 : collapseAux false (a :: rest) = ' ' :: collapseAux true rest := by
          rw [collapseAux_cons, if_pos hs]
          rfl
        rw [h1, collapseAux_cons, if_pos (show pyIsSpace ' ' = true from by decide), ih true]
        rfl
      · have h1 : collapseAux true (a :: rest) = collapseAux true rest := by
          rw [collapseAux_cons, if_pos hs]
          rfl
        rw [h1]
        exact ih true
    · have h1 : collapseAux b (a :: rest) = a :: collapseAux false rest := by
        rw [collapseAux_cons, if_neg hs]
      rw [h1, collapseAux_cons, if_neg hs, ih false]

theorem flatMap_fixed (l : List Char) (h : ∀ c ∈ l, nfkdChar c = [c]) :
    l.flatMap nfkdChar = l := by
  induction l with
  | nil => rfl
  | cons a rest ih =>
    rw [List.flatMap_cons, h a (List.mem_cons_self a rest),
      ih (fun c hc => h c (List.mem_cons_of_mem a hc))]
    rfl

theorem map_fixed (f : Char → Char) (l : List Char) (h : ∀ c ∈ l, f c = c) :
    l.map f = l :=
  (List.map_congr_left h).trans (List.map_id l)

/-- Claim C7: the embedded `normalize` is idempotent. -/
theorem claim_C7 (s : List Char) : normalize (normalize s) = normalize s := by
  by_cases hs : s = []
  · subst hs
    rfl
  · by_cases ho : normalize s = []
    · rw [ho]
      rfl
    · have hform : normalize s =
          collapseAux false
            (rstripWS (lstripWS (((s.flatMap nfkdChar).map dashMap).map upperChar))) := by
        rw [normalize, if_neg hs]
        rfl
      have hfix : ∀ c ∈ normalize s,
          nfkdChar c = [c] ∧ dashMap c = c ∧ upperChar c = c := by
        intro c hc
        rw [hform] at hc
        rcases mem_collapseAux _ _ _ hc with ⟨h1, _⟩ | h1
        · have h2 := mem_rstripWS _ _ h1
          have h3 := (List.dropWhile_sublist pyIsSpace).mem h2
          exact stage3_fixed s c h3
        · subst h1
          exact ⟨by decide, by decide, by decide⟩
      have hhead : ∀ c, (normalize s).head? = some c → pyIsSpace c = false := by
        intro c hc
        rw [hform] at hc
        cases hl4 : rstripWS (lstripWS (((s.flatMap nfkdChar).map dashMap).map upperChar)) with
        | nil =>
          rw [hl4] at hc
          simp [collapseAux] at hc
        | cons a rest =>
          have ha : pyIsSpace a = false :=
            lstripWS_head _ a (rstripWS_head _ a (by rw [hl4]; rfl))
          rw [hl4] at hc
          have := collapseAux_head (a :: rest) a rfl ha
          rw [this] at hc
          simp only [Option.some_inj] at hc
          subst hc
          exact ha
      have hlast : ∀ c, (normalize s).getLast? = some c → pyIsSpace c = false := by
        intro c hc
        rw [hform] at hc
        cases hl4 : rstripWS (lstripWS (((s.flatMap nfkdChar).map dashMap).map upperChar)) with
        | nil =>
          rw [hl4] at hc
          simp [collapseAux] at hc
        | cons a rest =>
          cases hgl : (a :: rest).getLast? with
          | none => simp at hgl
          | some d =>
            have hd : pyIsSpace d = false := rstripWS_last _ d (by rw [hl4]; exact hgl)
            rw [hl4] at hc
            have := collapseAux_last (a :: rest) false d hgl hd
            rw [this] at hc
            simp only [Option.some_inj] at hc
            subst hc
            exact hd
      rw [normalize, if_neg ho]
      rw [flatMap_fixed (normalize s) (fun c hc => (hfix c hc).1)]
      rw [map_fixed dashMap (normalize s) (fun c hc => (hfix c hc).2.1)]
      rw [map_fixed upperChar (normalize s) (fun c hc => (hfix c hc).2.2)]
      show collapseWS (stripWS (normalize s)) = normalize s
      unfold stripWS
      rw [lstripWS_eq_self (normalize s) hhead]
      rw [rstripWS_eq_self (normalize s) hlast]
      show collapseAux false (normalize s) = normalize s
      conv_lhs => rw [hform]
      rw [collapseAux_idem]
      exact hform.symm

theorem digit_mem10 (c : Char) (h : c.isDigit = true) : c ∈ decDigits := by
  simp [Char.isDigit] at h
  obtain ⟨h1, h2⟩ := h
  have h1' : 48 ≤ c.toNat := h1
  have h2' : c.toNat ≤ 57 := h2
  have hd : c.toNat = 48 ∨ c.toNat = 49 ∨ c.toNat = 50 ∨ c.toNat = 51 ∨ c.toNat = 52 ∨
      c.toNat = 53 ∨ c.toNat = 54 ∨ c.toNat = 55 ∨ c.toNat = 56 ∨ c.toNat = 57 := by omega
  rcases hd with h | h | h | h | h | h | h | h | h | h <;>
    first
      | (rw [char_eq_of_toNat (d := '0') h]; decide)
      | (rw [char_eq_of_toNat (d := '1') h]; decide)
      | (rw [char_eq_of_toNat (d := '2') h]; decide)
      | (rw [char_eq_of_toNat (d := '3') h]; decide)
      | (rw [char_eq_of_toNat (d := '4') h]; decide)
      | (rw [char_eq_of_toNat (d := '5') h]; decide)
      | (rw [char_eq_of_toNat (d := '6') h]; decide)
      | (rw [char_eq_of_toNat (d := '7') h]; decide)
      | (rw [char_eq_of_toNat (d := '8') h]; decide)
      | (rw [char_eq_of_toNat (d := '9') h]; decide)

theorem digit_facts (c : Char) (h : c.isDigit = true) :
    nfkdChar c = [c] ∧ dashMap c = c ∧ upperChar c = c ∧ pyIsSpace c = false ∧
      isWordChar c = true := by
  have hm := digit_mem10 c h
  fin_cases hm <;> exact ⟨by decide, by decide, by decide, by decide, by decide⟩

theorem famAlts_facts : ∀ fam ∈ famAlts, ∀ c ∈ fam,
    nfkdChar c = [c] ∧ dashMap c = c ∧ upperChar c = c ∧ pyIsSpace c = false ∧
      isWordChar c = true := by decide

theorem famAlts_ne_nil : ∀ fam ∈ famAlts, fam ≠ [] := by decide

theorem takeWhile_all (p : Char → Bool) : ∀ l : List Char, (∀ c ∈ l, p c = true) → l.takeWhile p = l := by
  intro l
  induction l with
  | nil => intro _; rfl
  | cons a rest ih =>
    intro h
    rw [List.takeWhile_cons, if_pos (h a (List.mem_cons_self a rest)),
      ih (fun c hc => h c (List.mem_cons_of_mem a hc))]

theorem dropWhile_all (p : Char → Bool) : ∀ l : List Char, (∀ c ∈ l, p c = true) → l.dropWhile p = [] := by
  intro l
  induction l with
  | nil => intro _; rfl
  | cons a rest ih =>
    intro h
    rw [List.dropWhile_cons, if_pos (h a (List.mem_cons_self a rest))]
    exact ih (fun c hc => h c (List.mem_cons_of_mem a hc))

theorem takeWhile_nofalse (p : Char → Bool) : ∀ l : List Char, (∀ c ∈ l, p c = false) →
    l.takeWhile p = [] := by
  intro l
  induction l with
  | nil => intro _; rfl
  | cons a rest _ =>
    intro h
    rw [List.takeWhile_cons, if_neg (by simp [h a (List.mem_cons_self a rest)])]

theorem dropWhile_nofalse (p : Char → Bool) : ∀ l : List Char, (∀ c ∈ l, p c = false) →
    l.dropWhile p = l := by
  intro l
  induction l with
  | nil => intro _; rfl
  | cons a rest _ =>
    intro h
    rw [List.dropWhile_cons, if_neg (by simp [h a (List.mem_cons_self a rest)])]

theorem matchFam_digit (c : Char) (l : List Char) (h : c.isDigit = true) :
    matchFam (c :: l) = none := by
  have hm := digit_mem10 c h
  fin_cases hm <;> rfl

theorem matchFam_self : ∀ fam ∈ famAlts, ∀ X : List Char, matchFam (fam ++ X) = some fam := by
  intro fam hf X
  fin_cases hf <;> simp [matchFam, famAlts, List.find?, List.isPrefixOf]

theorem getLastD_mem : ∀ (l : List Char) (d : Char), l.getLastD d ∈ d :: l := by
  intro l
  induction l with
  | nil => intro d; exact List.mem_cons_self d []
  | cons b rest ih =>
    intro d
    rw [List.getLastD_cons]
    rcases List.mem_cons.mp (ih b) with h | h
    · rw [h]
      exact List.mem_cons_of_mem d (List.mem_cons_self b rest)
    · exact List.mem_cons_of_mem d (List.mem_cons_of_mem b h)

/-- Unfolding equation for one scan step of `ecAux` at skip 0. -/
theorem ecAux_step (prev : Option Char) (c : Char) (rest : List Char) :
    ecAux prev 0 (c :: rest) =
      match (if boundaryBefore prev then matchFam (c :: rest) else none) with
      | some fam =>
        if ((c :: rest).drop fam.length).takeWhile Char.isDigit ≠ [] ∧
            boundaryAfter (((c :: rest).drop fam.length).dropWhile Char.isDigit) = true then
          fam ++ '-' :: ((c :: rest).drop fam.length).takeWhile Char.isDigit ++
            ecAux (some c)
              (fam.length + (((c :: rest).drop fam.length).takeWhile Char.isDigit).length - 1)
              rest
        else c :: ecAux (some c) 0 rest
      | none => c :: ecAux (some c) 0 rest := rfl

theorem ecAux_step_some (prev : Option Char) (c : Char) (rest fam : List Char)
    (h : (if boundaryBefore prev then matchFam (c :: rest) else none) = some fam) :
    ecAux prev 0 (c :: rest) =
      if ((c :: rest).drop fam.length).takeWhile Char.isDigit ≠ [] ∧
          boundaryAfter (((c :: rest).drop fam.length).dropWhile Char.isDigit) = true then
        fam ++ '-' :: ((c :: rest).drop fam.length).takeWhile Char.isDigit ++
          ecAux (some c)
            (fam.length + (((c :: rest).drop fam.length).takeWhile Char.isDigit).length - 1)
            rest
      else c :: ecAux (some c) 0 rest := by
  rw [ecAux_step, h]

theorem ecAux_step_none (prev : Option Char) (c : Char) (rest : List Char)
    (h : (if boundaryBefore prev then matchFam (c :: rest) else none) = none) :
    ecAux prev 0 (c :: rest) = c :: ecAux (some c) 0 rest := by
  rw [ecAux_step, h]

theorem ecAux_skip_all : ∀ (l : List Char) (prev : Option Char) (s : Nat), l.length ≤ s →
    ecAux prev s l = [] := by
  intro l
  induction l with
  | nil => intro prev s _; cases s <;> rfl
  | cons c rest ih =>
    intro prev s h
    simp only [List.length_cons] at h
    cases s with
    | zero => omega
    | succ s' =>
      show ecAux (some c) s' rest = []
      exact ih (some c) s' (by omega)

theorem ecAux_digits : ∀ ds : List Char, (∀ c ∈ ds, c.isDigit = true) →
    ∀ prev, ecAux prev 0 ds = ds := by
  intro ds
  induction ds with
  | nil => intro _ prev; rfl
  | cons d rest ih =>
    intro h prev
    rw [ecAux_step_none prev d rest]
    · rw [ih (fun c hc => h c (List.mem_cons_of_mem d hc)) (some d)]
    · split
      · exact matchFam_digit d rest (h d (List.mem_cons_self d rest))
      · rfl

theorem ecAux_word_walk : ∀ (chars : List Char) (p : Char), isWordChar p = true →
    (∀ c ∈ chars, isWordChar c = true) → ∀ post : List Char,
    ecAux (some p) 0 (chars ++ post) = chars ++ ecAux (some (chars.getLastD p)) 0 post := by
  intro chars
  induction chars with
  | nil => intro p _ _ post; rfl
  | cons ch chtail ih =>
    intro p hp h post
    rw [List.cons_append]
    rw [ecAux_step_none (some p) ch (chtail ++ post) (by simp [boundaryBefore, hp])]
    rw [ih ch (h ch (List.mem_cons_self ch chtail))
      (fun c hc => h c (List.mem_cons_of_mem ch hc)) post]
    rw [List.getLastD_cons]
    rfl

/-- Unfolding equation for one scan step of `esAux` at skip 0. -/
theorem esAux_step (prev : Option Char) (c : Char) (rest : List Char) :
    esAux prev 0 (c :: rest) =
      match (if boundaryBefore prev then matchFam (c :: rest) else none) with
      | some fam =>
        if ((c :: rest).drop fam.length).takeWhile pyIsSpace ≠ [] ∧
            (((c :: rest).drop fam.length).dropWhile pyIsSpace).takeWhile Char.isDigit ≠ [] ∧
            boundaryAfter ((((c :: rest).drop fam.length).dropWhile pyIsSpace).dropWhile
              Char.isDigit) = true then
          fam ++ '-' :: (((c :: rest).drop fam.length).dropWhile pyIsSpace).takeWhile
              Char.isDigit ++
            esAux (some c)
              (fam.length + (((c :: rest).drop fam.length).takeWhile pyIsSpace).length +
                ((((c :: rest).drop fam.length).dropWhile pyIsSpace).takeWhile
                  Char.isDigit).length - 1)
              rest
        else c :: esAux (some c) 0 rest
      | none => c :: esAux (some c) 0 rest := rfl

theorem esAux_step_some (prev : Option Char) (c : Char) (rest fam : List Char)
    (h : (if boundaryBefore prev then matchFam (c :: rest) else none) = some fam) :
    esAux prev 0 (c :: rest) =
      if ((c :: rest).drop fam.length).takeWhile pyIsSpace ≠ [] ∧
          (((c :: rest).drop fam.length).dropWhile pyIsSpace).takeWhile Char.isDigit ≠ [] ∧
          boundaryAfter ((((c :: rest).drop fam.length).dropWhile pyIsSpace).dropWhile
            Char.isDigit) = true then
        fam ++ '-' :: (((c :: rest).drop fam.length).dropWhile pyIsSpace).takeWhile
            Char.isDigit ++
          esAux (some c)
            (fam.length + (((c :: rest).drop fam.length).takeWhile pyIsSpace).length +
              ((((c :: rest).drop fam.length).dropWhile pyIsSpace).takeWhile
                Char.isDigit).length - 1)
            rest
      else c :: esAux (some c) 0 rest := by
  rw [esAux_step, h]

theorem esAux_step_none (prev : Option Char) (c : Char) (rest : List Char)
    (h : (if boundaryBefore prev then matchFam (c :: rest) else none) = none) :
    esAux prev 0 (c :: rest) = c :: esAux (some c) 0 rest := by
  rw [esAux_step, h]

theorem esAux_skip_all : ∀ (l : List Char) (prev : Option Char) (s : Nat), l.length ≤ s →
    esAux prev s l = [] := by
  intro l
  induction l with
  | nil => intro prev s _; cases s <;> rfl
  | cons c rest ih =>
    intro prev s h
    simp only [List.length_cons] at h
    cases s with
    | zero => omega
    | succ s' =>
      show esAux (some c) s' rest = []
      exact ih (some c) s' (by omega)

theorem esAux_digits : ∀ ds : List Char, (∀ c ∈ ds, c.isDigit = true) →
    ∀ prev, esAux prev 0 ds = ds := by
  intro ds
  induction ds with
  | nil => intro _ prev; rfl
  | cons d rest ih =>
    intro h prev
    rw [esAux_step_none prev d rest]
    · rw [ih (fun c hc => h c (List.mem_cons_of_mem d hc)) (some d)]
    · split
      · exact matchFam_digit d rest (h d (List.mem_cons_self d rest))
      · rfl

theorem esAux_word_walk : ∀ (chars : List Char) (p : Char), isWordChar p = true →
    (∀ c ∈ chars, isWordChar c = true) → ∀ post : List Char,
    esAux (some p) 0 (chars ++ post) = chars ++ esAux (some (chars.getLastD p)) 0 post := by
  intro chars
  induction chars with
  | nil => intro p _ _ post; rfl
  | cons ch chtail ih =>
    intro p hp h post
    rw [List.cons_append]
    rw [esAux_step_none (some p) ch (chtail ++ post) (by simp [boundaryBefore, hp])]
    rw [ih ch (h ch (List.mem_cons_self ch chtail))
      (fun c hc => h c (List.mem_cons_of_mem ch hc)) post]
    rw [List.getLastD_cons]
    rfl

theorem scrut_none_of_word (p : Char) (hp : isWordChar p = true) (l : List Char) :
    (if boundaryBefore (some p) then matchFam l else none) = none := by
  have hb : boundaryBefore (some p) = false := by
    show (!isWordChar p) = false
    rw [hp]
    rfl
  rw [if_neg (by rw [hb]; exact Bool.false_ne_true)]

theorem collapseAux_nospace : ∀ l : List Char, (∀ c ∈ l, pyIsSpace c = false) → ∀ b,
    collapseAux b l = l := by
  intro l
  induction l with
  | nil => intro _ b; rfl
  | cons a rest ih =>
    intro h b
    rw [collapseAux_cons, if_neg (by simp [h a (List.mem_cons_self a rest)])]
    rw [ih (fun c hc => h c (List.mem_cons_of_mem a hc)) false]

theorem collapseAux_append_nospace : ∀ pre : List Char, (∀ c ∈ pre, pyIsSpace c = false) →
    ∀ post : List Char, collapseAux false (pre ++ post) = pre ++ collapseAux false post := by
  intro pre
  induction pre with
  | nil => intro _ post; rfl
  | cons p pr ih =>
    intro h post
    rw [List.cons_append, collapseAux_cons, if_neg (by simp [h p (List.mem_cons_self p pr)])]
    rw [ih (fun c hc => h c (List.mem_cons_of_mem p hc)) post]
    rfl

theorem collapse_space_tail (ds : List Char) (h : ∀ c ∈ ds, pyIsSpace c = false) :
    collapseAux false (' ' :: ds) = ' ' :: ds := by
  rw [collapseAux_cons, if_pos (show pyIsSpace ' ' = true from by decide)]
  rw [if_neg (by simp)]
  rw [collapseAux_nospace ds h true]
  rfl

theorem normalize_fixed_of (l : List Char) (hne : l ≠ [])
    (hfix : ∀ c ∈ l, nfkdChar c = [c] ∧ dashMap c = c ∧ upperChar c = c)
    (hhead : ∀ c, l.head? = some c → pyIsSpace c = false)
    (hlast : ∀ c, l.getLast? = some c → pyIsSpace c = false)
    (hcol : collapseAux false l = l) : normalize l = l := by
  rw [normalize, if_neg hne]
  rw [flatMap_fixed l (fun c hc => (hfix c hc).1)]
  rw [map_fixed dashMap l (fun c hc => (hfix c hc).2.1)]
  rw [map_fixed upperChar l (fun c hc => (hfix c hc).2.2)]
  show collapseWS (stripWS l) = l
  unfold stripWS
  rw [lstripWS_eq_self l hhead, rstripWS_eq_self l hlast]
  exact hcol

theorem last_nonspace_digits (pre ds : List Char) (hne : ds ≠ [])
    (hds : ∀ c ∈ ds, c.isDigit = true) :
    ∀ c, (pre ++ ds).getLast? = some c → pyIsSpace c = false := by
  intro c hc
  rw [List.getLast?_append] at hc
  cases hd : ds.getLast? with
  | none => exact absurd (List.getLast?_eq_none_iff.mp hd) hne
  | some d =>
    rw [hd, Option.or_some] at hc
    have hcd : d = c := by simpa using hc
    subst hcd
    exact (digit_facts d (hds d (List.mem_of_mem_getLast? hd))).2.2.2.1

theorem fam_cons (fam : List Char) (hf : fam ∈ famAlts) : ∃ f0 ftail, fam = f0 :: ftail := by
  cases fam with
  | nil => exact absurd rfl (famAlts_ne_nil [] hf)
  | cons a b => exact ⟨a, b, rfl⟩

theorem head_nonspace_fam (fam : List Char) (hf : fam ∈ famAlts) (X : List Char) :
    ∀ c, (fam ++ X).head? = some c → pyIsSpace c = false := by
  intro c hc
  obtain ⟨f0, ftail, he⟩ := fam_cons fam hf
  subst he
  rw [List.cons_append, List.head?_cons, Option.some_inj] at hc
  subst hc
  exact (famAlts_facts _ hf _ (List.mem_cons_self f0 ftail)).2.2.2.1

theorem digits_fixed (ds : List Char) (hds : ∀ c ∈ ds, c.isDigit = true) :
    ∀ c ∈ ds, nfkdChar c = [c] ∧ dashMap c = c ∧ upperChar c = c := by
  intro c hc
  obtain ⟨a1, a2, a3, _, _⟩ := digit_facts c (hds c hc)
  exact ⟨a1, a2, a3⟩

theorem form_fixed (fam : List Char) (hf : fam ∈ famAlts) (mid : List Char)
    (hmid : ∀ c ∈ mid, nfkdChar c = [c] ∧ dashMap c = c ∧ upperChar c = c) :
    ∀ c ∈ fam ++ mid, nfkdChar c = [c] ∧ dashMap c = c ∧ upperChar c = c := by
  intro c hc
  rcases List.mem_append.mp hc with h | h
  · obtain ⟨a1, a2, a3, _, _⟩ := famAlts_facts fam hf c h
    exact ⟨a1, a2, a3⟩
  · exact hmid c h

theorem normalize_compact (fam : List Char) (hf : fam ∈ famAlts) (ds : List Char)
    (hne : ds ≠ []) (hds : ∀ c ∈ ds, c.isDigit = true) :
    normalize (fam ++ ds) = fam ++ ds := by
  obtain ⟨f0, ftail, he⟩ := fam_cons fam hf
  refine normalize_fixed_of _ (by rw [he]; simp) (form_fixed fam hf ds (digits_fixed ds hds))
    (head_nonspace_fam fam hf ds) (last_nonspace_digits fam ds hne hds) ?_
  refine collapseAux_nospace _ ?_ false
  intro c hc
  rcases List.mem_append.mp hc with h | h
  · exact (famAlts_facts fam hf c h).2.2.2.1
  · exact (digit_facts c (hds c h)).2.2.2.1

theorem normalize_spaced (fam : List Char) (hf : fam ∈ famAlts) (ds : List Char)
    (hne : ds ≠ []) (hds : ∀ c ∈ ds, c.isDigit = true) :
    normalize (fam ++ ' ' :: ds) = fam ++ ' ' :: ds := by
  have hnospace : ∀ c ∈ ds, pyIsSpace c = false := fun c hc =>
    (digit_facts c (hds c hc)).2.2.2.1
  refine normalize_fixed_of _ (by simp) ?_ (head_nonspace_fam fam hf _) ?_ ?_
  · refine form_fixed fam hf (' ' :: ds) ?_
    intro c hc
    rcases List.mem_cons.mp hc with h | h
    · subst h
      exact ⟨by decide, by decide, by decide⟩
    · exact digits_fixed ds hds c h
  · rw [List.append_cons]
    exact last_nonspace_digits (fam ++ [' ']) ds hne hds
  · rw [collapseAux_append_nospace fam (fun c hc => (famAlts_facts fam hf c hc).2.2.2.1)]
    rw [collapse_space_tail ds hnospace]

theorem normalize_hyph (fam : List Char) (hf : fam ∈ famAlts) (ds : List Char)
    (hne : ds ≠ []) (hds : ∀ c ∈ ds, c.isDigit = true) :
    normalize (fam ++ '-' :: ds) = fam ++ '-' :: ds := by
  refine normalize_fixed_of _ (by simp) ?_ (head_nonspace_fam fam hf _) ?_ ?_
  · refine form_fixed fam hf ('-' :: ds) ?_
    intro c hc
    rcases List.mem_cons.mp hc with h | h
    · subst h
      exact ⟨by decide, by decide, by decide⟩
    · exact digits_fixed ds hds c h
  · rw [List.append_cons]
    exact last_nonspace_digits (fam ++ ['-']) ds hne hds
  · refine collapseAux_nospace _ ?_ false
    intro c hc
    rcases List.mem_append.mp hc with h | h
    · exact (famAlts_facts fam hf c h).2.2.2.1
    · rcases List.mem_cons.mp h with h2 | h2
      · subst h2
        decide
      · exact (digit_facts c (hds c h2)).2.2.2.1

theorem ec_compact (fam : List Char) (hf : fam ∈ famAlts) (ds : List Char)
    (hne : ds ≠ []) (hds : ∀ c ∈ ds, c.isDigit = true) :
    expand_compact_grade (fam ++ ds) = fam ++ '-' :: ds := by
  obtain ⟨f0, ftail, rfl⟩ := fam_cons fam hf
  unfold expand_compact_grade
  rw [List.cons_append]
  have hm : (if boundaryBefore none then matchFam (f0 :: (ftail ++ ds)) else none) =
      some (f0 :: ftail) := by
    rw [if_pos (show boundaryBefore none = true from rfl), ← List.cons_append]
    exact matchFam_self (f0 :: ftail) hf ds
  rw [ecAux_step_some none f0 (ftail ++ ds) (f0 :: ftail) hm]
  rw [show (f0 :: (ftail ++ ds)).drop (f0 :: ftail).length = ds from by
    rw [← List.cons_append, List.drop_left]]
  rw [takeWhile_all Char.isDigit ds hds, dropWhile_all Char.isDigit ds hds]
  rw [if_pos ⟨hne, rfl⟩]
  rw [ecAux_skip_all (ftail ++ ds) (some f0) _
    (by simp only [List.length_append, List.length_cons]; omega)]
  simp

theorem ec_spaced (fam : List Char) (hf : fam ∈ famAlts) (ds : List Char)
    (hds : ∀ c ∈ ds, c.isDigit = true) :
    expand_compact_grade (fam ++ ' ' :: ds) = fam ++ ' ' :: ds := by
  obtain ⟨f0, ftail, rfl⟩ := fam_cons fam hf
  unfold expand_compact_grade
  rw [List.cons_append]
  have hm : (if boundaryBefore none then matchFam (f0 :: (ftail ++ ' ' :: ds)) else none) =
      some (f0 :: ftail) := by
    rw [if_pos (show boundaryBefore none = true from rfl), ← List.cons_append]
    exact matchFam_self (f0 :: ftail) hf (' ' :: ds)
  rw [ecAux_step_some none f0 (ftail ++ ' ' :: ds) (f0 :: ftail) hm]
  rw [show (f0 :: (ftail ++ ' ' :: ds)).drop (f0 :: ftail).length = ' ' :: ds from by
    rw [← List.cons_append, List.drop_left]]
  rw [show (' ' :: ds).takeWhile Char.isDigit = [] from rfl]
  rw [if_neg (by simp)]
  have hword : ∀ c ∈ ftail, isWordChar c = true := fun c hc =>
    (famAlts_facts _ hf c (List.mem_cons_of_mem f0 hc)).2.2.2.2
  rw [ecAux_word_walk ftail f0
    ((famAlts_facts _ hf f0 (List.mem_cons_self f0 ftail)).2.2.2.2) hword (' ' :: ds)]
  have hlastw : isWordChar (ftail.getLastD f0) = true := by
    rcases List.mem_cons.mp (getLastD_mem ftail f0) with h | h
    · rw [h]
      exact (famAlts_facts _ hf f0 (List.mem_cons_self f0 ftail)).2.2.2.2
    · exact hword _ h
  rw [ecAux_step_none (some (ftail.getLastD f0)) ' ' ds (scrut_none_of_word _ hlastw _)]
  rw [ecAux_digits ds hds (some ' ')]

theorem ec_hyph (fam : List Char) (hf : fam ∈ famAlts) (ds : List Char)
    (hds : ∀ c ∈ ds, c.isDigit = true) :
    expand_compact_grade (fam ++ '-' :: ds) = fam ++ '-' :: ds := by
  obtain ⟨f0, ftail, rfl⟩ := fam_cons fam hf
  unfold expand_compact_grade
  rw [List.cons_append]
  have hm : (if boundaryBefore none then matchFam (f0 :: (ftail ++ '-' :: ds)) else none) =
      some (f0 :: ftail) := by
    rw [if_pos (show boundaryBefore none = true from rfl), ← List.cons_append]
    exact matchFam_self (f0 :: ftail) hf ('-' :: ds)
  rw [ecAux_step_some none f0 (ftail ++ '-' :: ds) (f0 :: ftail) hm]
  rw [show (f0 :: (ftail ++ '-' :: ds)).drop (f0 :: ftail).length = '-' :: ds from by
    rw [← List.cons_append, List.drop_left]]
  rw [show ('-' :: ds).takeWhile Char.isDigit = [] from rfl]
  rw [if_neg (by simp)]
  have hword : ∀ c ∈ ftail, isWordChar c = true := fun c hc =>
    (famAlts_facts _ hf c (List.mem_cons_of_mem f0 hc)).2.2.2.2
  rw [ecAux_word_walk ftail f0
    ((famAlts_facts _ hf f0 (List.mem_cons_self f0 ftail)).2.2.2.2) hword ('-' :: ds)]
  have hlastw : isWordChar (ftail.getLastD f0) = true := by
    rcases List.mem_cons.mp (getLastD_mem ftail f0) with h | h
    · rw [h]
      exact (famAlts_facts _ hf f0 (List.mem_cons_self f0 ftail)).2.2.2.2
    · exact hword _ h
  rw [ecAux_step_none (some (ftail.getLastD f0)) '-' ds (scrut_none_of_word _ hlastw _)]
  rw [ecAux_digits ds hds (some '-')]

theorem es_hyph (fam : List Char) (hf : fam ∈ famAlts) (ds : List Char)
    (hds : ∀ c ∈ ds, c.isDigit = true) :
    expand_spaced_grade (fam ++ '-' :: ds) = fam ++ '-' :: ds := by
  obtain ⟨f0, ftail, rfl⟩ := fam_cons fam hf
  unfold expand_spaced_grade
  rw [List.cons_append]
  have hm : (if boundaryBefore none then matchFam (f0 :: (ftail ++ '-' :: ds)) else none) =
      some (f0 :: ftail) := by
    rw [if_pos (show boundaryBefore none = true from rfl), ← List.cons_append]
    exact matchFam_self (f0 :: ftail) hf ('-' :: ds)
  rw [esAux_step_some none f0 (ftail ++ '-' :: ds) (f0 :: ftail) hm]
  rw [show (f0 :: (ftail ++ '-' :: ds)).drop (f0 :: ftail).length = '-' :: ds from by
    rw [← List.cons_append, List.drop_left]]
  rw [show ('-' :: ds).takeWhile pyIsSpace = [] from rfl]
  rw [if_neg (by simp)]
  have hword : ∀ c ∈ ftail, isWordChar c = true := fun c hc =>
    (famAlts_facts _ hf c (List.mem_cons_of_mem f0 hc)).2.2.2.2
  rw [esAux_word_walk ftail f0
    ((famAlts_facts _ hf f0 (List.mem_cons_self f0 ftail)).2.2.2.2) hword ('-' :: ds)]
  have hlastw : isWordChar (ftail.getLastD f0) = true := by
    rcases List.mem_cons.mp (getLastD_mem ftail f0) with h | h
    · rw [h]
      exact (famAlts_facts _ hf f0 (List.mem_cons_self f0 ftail)).2.2.2.2
    · exact hword _ h
  rw [esAux_step_none (some (ftail.getLastD f0)) '-' ds (scrut_none_of_word _ hlastw _)]
  rw [esAux_digits ds hds (some '-')]

theorem es_spaced (fam : List Char) (hf : fam ∈ famAlts) (ds : List Char)
    (hne : ds ≠ []) (hds : ∀ c ∈ ds, c.isDigit = true) :
    expand_spaced_grade (fam ++ ' ' :: ds) = fam ++ '-' :: ds := by
  obtain ⟨f0, ftail, rfl⟩ := fam_cons fam hf
  unfold expand_spaced_grade
  rw [List.cons_append]
  have hm : (if boundaryBefore none then matchFam (f0 :: (ftail ++ ' ' :: ds)) else none) =
      some (f0 :: ftail) := by
    rw [if_pos (show boundaryBefore none = true from rfl), ← List.cons_append]
    exact matchFam_self (f0 :: ftail) hf (' ' :: ds)
  rw [esAux_step_some none f0 (ftail ++ ' ' :: ds) (f0 :: ftail) hm]
  rw [show (f0 :: (ftail ++ ' ' :: ds)).drop (f0 :: ftail).length = ' ' :: ds from by
    rw [← List.cons_append, List.drop_left]]
  have hnospace : ∀ c ∈ ds, pyIsSpace c = false := fun c hc =>
    (digit_facts c (hds c hc)).2.2.2.1
  rw [show (' ' :: ds).takeWhile pyIsSpace = ' ' :: ds.takeWhile pyIsSpace from by
    rw [List.takeWhile_cons, if_pos (by decide)]]
  rw [takeWhile_nofalse pyIsSpace ds hnospace]
  rw [show (' ' :: ds).dropWhile pyIsSpace = ds.dropWhile pyIsSpace from by
    rw [List.dropWhile_cons, if_pos (by decide)]]
  rw [dropWhile_nofalse pyIsSpace ds hnospace]
  rw [takeWhile_all Char.isDigit ds hds, dropWhile_all Char.isDigit ds hds]
  rw [if_pos ⟨by simp, hne, rfl⟩]
  rw [esAux_skip_all (ftail ++ ' ' :: ds) (some f0) _
    (by simp only [List.length_append, List.length_cons, List.length_singleton]; omega)]
  simp

/-- Claim C8: the compact, spaced and hyphenated spellings of one grade
code normalize to the same canonical hyphenated form: concretely for P4,
and in general any grade-family token from the fixed alternation followed
(directly, after a space, or after a hyphen) by digits, standing as a whole
token, maps to FAMILY-DIGITS. -/
theorem claim_C8 :
    (normalize_grade "P4".toList = "P-4".toList ∧
      normalize_grade "P 4".toList = "P-4".toList ∧
      normalize_grade "P-4".toList = "P-4".toList) ∧
    ∀ fam ∈ famAlts, ∀ ds : List Char, ds ≠ [] → (∀ c ∈ ds, c.isDigit = true) →
      normalize_grade (fam ++ ds) = fam ++ '-' :: ds ∧
      normalize_grade (fam ++ ' ' :: ds) = fam ++ '-' :: ds ∧
      normalize_grade (fam ++ '-' :: ds) = fam ++ '-' :: ds := by
  refine ⟨⟨by decide, by decide, by decide⟩, ?_⟩
  intro fam hf ds hne hds
  refine ⟨?_, ?_, ?_⟩
  · unfold normalize_grade
    rw [normalize_compact fam hf ds hne hds, ec_compact fam hf ds hne hds,
      es_hyph fam hf ds hds]
  · unfold normalize_grade
    rw [normalize_spaced fam hf ds hne hds, ec_spaced fam hf ds hds,
      es_spaced fam hf ds hne hds]
  · unfold normalize_grade
    rw [normalize_hyph fam hf ds hne hds, ec_hyph fam hf ds hds, es_hyph fam hf ds hds]

theorem claim_C8_witness :
    (['S', 'B'] ∈ famAlts ∧ (['1', '2'] : List Char) ≠ [] ∧
      (∀ c ∈ (['1', '2'] : List Char), c.isDigit = true)) ∧
      normalize_grade (['S', 'B'] ++ ['1', '2']) = ['S', 'B'] ++ '-' :: ['1', '2'] :=
  ⟨⟨by decide, by decide, by decide⟩,
   (claim_C8.2 ['S', 'B'] (by decide) ['1', '2'] (by decide) (by decide)).1⟩

end Scraper
